import Mathlib

/-!
Shallow embedding of the IOTAdiffraction numerical core (Go sources) and
verification of the frozen claims about it.

Floating-point arithmetic is modelled by exact real arithmetic (`ℝ`, `ℂ`);
Go `int` values are modelled by `ℕ`/`ℤ` with the conversions made explicit.
Lists of lists model the Go `[][]float64` / `[][]complex128` row-of-rows
matrices.  The Cephes Fresnel-integral routine and the vendor FFT are
external collaborators of the core: the Fresnel oracle is kept abstract
(a parameter `fres : ℝ → ℝ × ℝ`), and the FFT is modelled by the exact
unnormalized discrete Fourier transform, which is the documented contract
of the library the code calls.
-/

namespace IOTA

noncomputable section

open Real Complex

/-- Go `math.Round`: round half away from zero. -/
def goRound (x : ℝ) : ℤ := if 0 ≤ x then ⌊x + 1 / 2⌋ else ⌈x - 1 / 2⌉

/-- Go `int(x)` conversion from `float64`: truncation toward zero. -/
def goTrunc (x : ℝ) : ℤ := if 0 ≤ x then ⌊x⌋ else ⌈x⌉

/-- Embedding of `Linspace` (openBLASmatrixMultiply.go): numpy-style evenly
spaced vector of `n` points from `start` to `finish` inclusive. -/
def Linspace (start finish : ℝ) (n : ℕ) : List ℝ :=
  if n ≤ 1 then [start]
  else
    let step := (finish - start) / ((n - 1 : ℕ) : ℝ)
    (List.range n).map fun i : ℕ => start + (i : ℝ) * step

/-- Embedding of `fresnelWeightsTopRow` (sincDiffraction.go).  The Fresnel
integral oracle `fresnelCephesScalar` is an external collaborator whose
contract is the pair of normalized Fresnel integrals; it is passed in as the
abstract parameter `fres`, returning `(S, C)`. -/
def fresnelWeightsTopRow (fres : ℝ → ℝ × ℝ) (NPts : ℕ)
    (LKm ZKm WavelengthKm : ℝ) : List ℂ :=
  let dx := LKm / (NPts : ℝ)
  let W := 1 / (2 * dx)
  let delta := dx
  let k := Real.pi * 2 / WavelengthKm
  let x := Linspace (-LKm / 2) (LKm / 2 - dx) NPts
  let t1 := -Real.pi * Real.sqrt (2 * ZKm / k) * W
  let t2 := Real.sqrt (k / (2 * ZKm))
  let t4 := delta / Real.pi * Real.sqrt (k / (2 * ZKm)) * Real.sqrt (Real.pi / 2)
  let t5 := k / (2 * ZKm)
  x.map fun xm =>
    let slide := xm - x.getD 0 0
    let u1x := t1 - t2 * slide
    let u2x := -t1 - t2 * slide
    let f1 := fres (u1x * Real.sqrt (2 / Real.pi))
    let f2 := fres (u2x * Real.sqrt (2 / Real.pi))
    (⟨t4, 0⟩ : ℂ) * Complex.exp (⟨0, slide * slide * t5⟩ : ℂ) *
      (⟨f2.2 - f1.2, -(f2.1 - f1.1)⟩ : ℂ)

/-- The weight-row entry exactly as the specification text writes it:
`dx = L/N`, `W = 1/(2 dx)`, `δ = dx`, `k = 2π/λ`, `x[m] = −L/2 + m·dx`,
`slide = x[m] − x[0]`, `t1 = −π·√(2Z/k)·W`, `t2 = √(k/(2Z))`,
`t4 = (δ/π)·√(k/(2Z))·√(π/2)`, `t5 = k/(2Z)`, `t6 = √(2/π)`,
`u1 = t1 − t2·slide`, `u2 = −t1 − t2·slide`, `(S1,C1) = fresnel(u1·t6)`,
`(S2,C2) = fresnel(u2·t6)`, and
`w[m] = t4 · exp(i·slide²·t5) · ((C2 − C1) − i·(S2 − S1))`. -/
def specTopRowEntry (fres : ℝ → ℝ × ℝ) (NPts : ℕ)
    (LKm ZKm WavelengthKm : ℝ) (m : ℕ) : ℂ :=
  let dx := LKm / (NPts : ℝ)
  let W := 1 / (2 * dx)
  let delta := dx
  let k := 2 * Real.pi / WavelengthKm
  let xm := -LKm / 2 + (m : ℝ) * dx
  let x0 := -LKm / 2 + (0 : ℝ) * dx
  let slide := xm - x0
  let t1 := -Real.pi * Real.sqrt (2 * ZKm / k) * W
  let t2 := Real.sqrt (k / (2 * ZKm))
  let t4 := delta / Real.pi * Real.sqrt (k / (2 * ZKm)) * Real.sqrt (Real.pi / 2)
  let t5 := k / (2 * ZKm)
  let t6 := Real.sqrt (2 / Real.pi)
  let u1 := t1 - t2 * slide
  let u2 := -t1 - t2 * slide
  let SC1 := fres (u1 * t6)
  let SC2 := fres (u2 * t6)
  (t4 : ℂ) * Complex.exp (Complex.I * ((slide * slide * t5 : ℝ) : ℂ)) *
    (((SC2.2 - SC1.2 : ℝ) : ℂ) - Complex.I * ((SC2.1 - SC1.1 : ℝ) : ℂ))

/-- Embedding of `AbsInt` (sincDiffraction.go). -/
def AbsInt (x : ℤ) : ℤ := if x < 0 then -x else x

/-- Embedding of `fresnelWeights` (sincDiffraction.go): the full `N×N`
matrix reconstructed from the top row by `ans[row][col] = topRow[|col−row|]`. -/
def fresnelWeights (fres : ℝ → ℝ × ℝ) (NPts : ℕ)
    (LKm ZKm WavelengthKm : ℝ) : List (List ℂ) :=
  let topRow := fresnelWeightsTopRow fres NPts LKm ZKm WavelengthKm
  (List.range NPts).map fun row : ℕ =>
    (List.range NPts).map fun col : ℕ =>
      topRow.getD (AbsInt ((col : ℤ) - (row : ℤ))).toNat 0

lemma range_map_getD {α : Type} (f : ℕ → α) (n i : ℕ) (d : α) (hi : i < n) :
    (((List.range n).map f).getD i d) = f i := by
  rw [List.getD_eq_getElem?_getD]
  rw [List.getElem?_map]
  rw [List.getElem?_range hi]
  rfl

lemma Linspace_getD (a b : ℝ) (n i : ℕ) (hn : 2 ≤ n) (hi : i < n) :
    (Linspace a b n).getD i 0 = a + (i : ℝ) * ((b - a) / ((n : ℝ) - 1)) := by
  unfold Linspace
  rw [if_neg (by omega)]
  rw [range_map_getD _ _ _ _ hi]
  have : ((n - 1 : ℕ) : ℝ) = (n : ℝ) - 1 := by
    have : (1 : ℕ) ≤ n := by omega
    push_cast [Nat.cast_sub this]
    ring
  rw [this]

lemma Linspace_length (a b : ℝ) (n : ℕ) (hn : 2 ≤ n) :
    (Linspace a b n).length = n := by
  unfold Linspace
  rw [if_neg (by omega)]
  simp

lemma list_map_getD {α β : Type} (l : List α) (f : α → β) (i : ℕ)
    (hi : i < l.length) (d : α) (d2 : β) :
    (l.map f).getD i d2 = f (l.getD i d) := by
  rw [List.getD_eq_getElem?_getD, List.getElem?_map, List.getElem?_eq_getElem hi]
  rw [List.getD_eq_getElem?_getD, List.getElem?_eq_getElem hi]
  rfl

lemma cmk_eq_ofReal (a : ℝ) : (⟨a, 0⟩ : ℂ) = (a : ℂ) := by
  simp [Complex.ext_iff]

lemma cmk_eq_I_mul (s : ℝ) : (⟨0, s⟩ : ℂ) = Complex.I * ((s : ℝ) : ℂ) := by
  simp [Complex.ext_iff]

lemma cmk_eq_sub_I_mul (c d : ℝ) :
    (⟨c, -d⟩ : ℂ) = ((c : ℝ) : ℂ) - Complex.I * ((d : ℝ) : ℂ) := by
  simp [Complex.ext_iff]

/-- **C1.** For every integer `N ≥ 10` and positive reals `L`, `Z`, `λ` (and any
Fresnel-integral oracle `fres`), `fresnelWeightsTopRow` returns a length-`N`
complex vector whose `m`-th entry equals the specification formula
`t4 · exp(i·slide²·t5) · ((C2 − C1) − i·(S2 − S1))` with
`slide = x[m] − x[0]`, `x[m] = −L/2 + m·dx`, as captured by `specTopRowEntry`. -/
theorem fresnelWeightsTopRow_matches_spec (fres : ℝ → ℝ × ℝ) (N : ℕ)
    (L Z lam : ℝ) (hN : 10 ≤ N) (hL : 0 < L) (hZ : 0 < Z) (hlam : 0 < lam) :
    (fresnelWeightsTopRow fres N L Z lam).length = N ∧
      ∀ m < N, (fresnelWeightsTopRow fres N L Z lam).getD m 0 =
        specTopRowEntry fres N L Z lam m := by
  have hN2 : 2 ≤ N := by omega
  have hNr : (10 : ℝ) ≤ (N : ℝ) := by exact_mod_cast hN
  have hN0 : (N : ℝ) ≠ 0 := by linarith
  have hN1 : (N : ℝ) - 1 ≠ 0 := by linarith
  have hlen : (Linspace (-L / 2) (L / 2 - L / (N : ℝ)) N).length = N :=
    Linspace_length _ _ _ hN2
  have hstep : (L / 2 - L / (N : ℝ) - -L / 2) / ((N : ℝ) - 1) = L / (N : ℝ) := by
    field_simp
    ring
  constructor
  · simp only [fresnelWeightsTopRow, List.length_map]
    exact hlen
  · intro m hm
    have hm' : m < (Linspace (-L / 2) (L / 2 - L / (N : ℝ)) N).length := by
      rw [hlen]; exact hm
    simp only [fresnelWeightsTopRow]
    rw [list_map_getD _ _ _ hm' 0]
    rw [Linspace_getD _ _ _ _ hN2 hm, Linspace_getD _ _ _ _ hN2 (by omega)]
    rw [hstep]
    simp only [specTopRowEntry]
    rw [cmk_eq_ofReal, cmk_eq_I_mul, cmk_eq_sub_I_mul]
    have hk : Real.pi * 2 / lam = 2 * Real.pi / lam := by ring
    rw [hk]
    norm_num

/-- Closed witness for `fresnelWeightsTopRow_matches_spec` at
`N = 10`, `L = Z = λ = 1`, `fres x = (x, x)`, `m = 3`. -/
theorem fresnelWeightsTopRow_matches_spec_witness :
    (fresnelWeightsTopRow (fun x => (x, x)) 10 1 1 1).length = 10 ∧
      (fresnelWeightsTopRow (fun x => (x, x)) 10 1 1 1).getD 3 0 =
        specTopRowEntry (fun x => (x, x)) 10 1 1 1 3 := by
  have h := fresnelWeightsTopRow_matches_spec (fun x => (x, x)) 10 1 1 1
    (by norm_num) (by norm_num) (by norm_num) (by norm_num)
  exact ⟨h.1, h.2 3 (by norm_num)⟩

lemma AbsInt_toNat (z : ℤ) : (AbsInt z).toNat = z.natAbs := by
  unfold AbsInt
  split <;> omega

lemma fresnelWeights_entry (fres : ℝ → ℝ × ℝ) (N : ℕ) (L Z lam : ℝ)
    (i j : ℕ) (hi : i < N) (hj : j < N) :
    ((fresnelWeights fres N L Z lam).getD i []).getD j 0 =
      (fresnelWeightsTopRow fres N L Z lam).getD
        (AbsInt ((j : ℤ) - (i : ℤ))).toNat 0 := by
  unfold fresnelWeights
  rw [range_map_getD _ _ _ _ hi, range_map_getD _ _ _ _ hj]

/-- **C2.** For every `N ≥ 10` and positive `L`, `Z`, `λ`, the full `N×N`
weight matrix built by `fresnelWeights` satisfies `W[i,j] = w[|i−j|]` exactly
for all `i, j < N`, hence is symmetric and Toeplitz (constant along every
diagonal). -/
theorem fresnelWeights_toeplitz (fres : ℝ → ℝ × ℝ) (N : ℕ) (L Z lam : ℝ)
    (hN : 10 ≤ N) (hL : 0 < L) (hZ : 0 < Z) (hlam : 0 < lam) :
    ∀ i j, i < N → j < N →
      (((fresnelWeights fres N L Z lam).getD i []).getD j 0 =
        (fresnelWeightsTopRow fres N L Z lam).getD ((i : ℤ) - (j : ℤ)).natAbs 0)
      ∧ (((fresnelWeights fres N L Z lam).getD i []).getD j 0 =
        ((fresnelWeights fres N L Z lam).getD j []).getD i 0)
      ∧ (i + 1 < N → j + 1 < N →
        ((fresnelWeights fres N L Z lam).getD (i + 1) []).getD (j + 1) 0 =
          ((fresnelWeights fres N L Z lam).getD i []).getD j 0) := by
  intro i j hi hj
  have habs : ∀ a b : ℕ, (AbsInt ((a : ℤ) - (b : ℤ))).toNat =
      ((b : ℤ) - (a : ℤ)).natAbs := by
    intro a b
    rw [AbsInt_toNat]
    omega
  refine ⟨?_, ?_, ?_⟩
  · rw [fresnelWeights_entry fres N L Z lam i j hi hj, habs]
  · rw [fresnelWeights_entry fres N L Z lam i j hi hj,
      fresnelWeights_entry fres N L Z lam j i hj hi, habs, habs]
    congr 1
    omega
  · intro hi1 hj1
    rw [fresnelWeights_entry fres N L Z lam (i + 1) (j + 1) hi1 hj1,
      fresnelWeights_entry fres N L Z lam i j hi hj, habs, habs]
    congr 1
    omega

/-- Closed witness for `fresnelWeights_toeplitz` at `N = 10`,
`L = Z = λ = 1`, `fres x = (x, x)`, `i = 2`, `j = 5`. -/
theorem fresnelWeights_toeplitz_witness :
    (((fresnelWeights (fun x => (x, x)) 10 1 1 1).getD 2 []).getD 5 0 =
      (fresnelWeightsTopRow (fun x => (x, x)) 10 1 1 1).getD 3 0)
    ∧ (((fresnelWeights (fun x => (x, x)) 10 1 1 1).getD 2 []).getD 5 0 =
      ((fresnelWeights (fun x => (x, x)) 10 1 1 1).getD 5 []).getD 2 0) := by
  have h := fresnelWeights_toeplitz (fun x => (x, x)) 10 1 1 1
    (by norm_num) (by norm_num) (by norm_num) (by norm_num) 2 5
    (by norm_num) (by norm_num)
  refine ⟨?_, h.2.1⟩
  have h1 := h.1
  norm_num at h1
  exact h1

/-- Embedding of `StarBrightness` (limb-darkened stellar disk brightness at
radial distance `r` from center). -/
def StarBrightness (r starDiamKm limbDarkeningCoeff : ℝ) : ℝ :=
  if 1 ≤ r / (starDiamKm / 2) then 0
  else 1 - limbDarkeningCoeff *
    (1 - Real.sqrt (1 - r / (starDiamKm / 2) * (r / (starDiamKm / 2))))

/-- One entry of the star PSF matrix: brightness at pixel `(row, col)` of a
grid whose center pixel is `(center, center)`, with `r` the physical radius
`√((row−center)² + (col−center)²) · resolution` exactly as in `BuildStarPsf`. -/
def psfEntry (center : ℕ) (resolutionKmPerPixel starDiamKm limbDarkeningCoeff : ℝ)
    (row col : ℕ) : ℝ :=
  StarBrightness
    (Real.sqrt (((((row : ℤ) - center) * ((row : ℤ) - center) +
      ((col : ℤ) - center) * ((col : ℤ) - center) : ℤ) : ℝ)) *
        resolutionKmPerPixel)
    starDiamKm limbDarkeningCoeff

/-- Width in pixels of the star PSF: `⌈D/ρ⌉` forced even, plus a 4-pixel
border, as computed at the top of `BuildStarPsf`. -/
def psfWidth (starDiamKm resolutionKmPerPixel : ℝ) : ℕ :=
  let base := (⌈starDiamKm / resolutionKmPerPixel⌉).toNat
  let evened := if base % 2 ≠ 0 then base + 1 else base
  evened + 4

/-- Embedding of `BuildStarPsf`: square PSF matrix of the limb-darkened disk
plus the running sum of its weights. -/
def BuildStarPsf (starDiamKm resolutionKmPerPixel limbDarkeningCoeff : ℝ) :
    List (List ℝ) × ℝ :=
  let psfWidthPixels := psfWidth starDiamKm resolutionKmPerPixel
  let center := psfWidthPixels / 2
  let starMatrix := (List.range psfWidthPixels).map fun row : ℕ =>
    (List.range psfWidthPixels).map fun col : ℕ =>
      psfEntry center resolutionKmPerPixel starDiamKm limbDarkeningCoeff row col
  (starMatrix, (starMatrix.map List.sum).sum)

lemma StarBrightness_nonneg (r D u : ℝ) (hr : 0 ≤ r) (hD : 0 < D)
    (hu0 : 0 ≤ u) (hu1 : u < 1) : 0 ≤ StarBrightness r D u := by
  unfold StarBrightness
  split
  · exact le_refl 0
  · rename_i hx
    push_neg at hx
    have hx0 : 0 ≤ r / (D / 2) := div_nonneg hr (by linarith)
    have hs0 : 0 ≤ Real.sqrt (1 - r / (D / 2) * (r / (D / 2))) :=
      Real.sqrt_nonneg _
    have hs1 : Real.sqrt (1 - r / (D / 2) * (r / (D / 2))) ≤ 1 :=
      Real.sqrt_le_one.mpr (by nlinarith)
    nlinarith

lemma StarBrightness_zero (D u : ℝ) (hD : 0 < D) :
    StarBrightness 0 D u = 1 := by
  unfold StarBrightness
  rw [if_neg]
  · rw [zero_div]
    simp
  · rw [zero_div]
    norm_num

lemma psfEntry_nonneg (center : ℕ) (ρ D u : ℝ) (hρ : 0 < ρ) (hD : 0 < D)
    (hu0 : 0 ≤ u) (hu1 : u < 1) (row col : ℕ) :
    0 ≤ psfEntry center ρ D u row col :=
  StarBrightness_nonneg _ D u
    (mul_nonneg (Real.sqrt_nonneg _) (le_of_lt hρ)) hD hu0 hu1

lemma psfEntry_center (center : ℕ) (ρ D u : ℝ) (hD : 0 < D) :
    psfEntry center ρ D u center center = 1 := by
  unfold psfEntry
  simp only [sub_self, mul_zero, zero_mul, add_zero, Int.cast_zero,
    Real.sqrt_zero]
  exact StarBrightness_zero D u hD

/-- **C10.** For every `starDiamKm > 0`, `resolution > 0` and limb-darkening
coefficient `u ∈ [0, 1)`, the PSF's center pixel has brightness exactly `1`
and `BuildStarPsf` returns `sumWeights ≥ 1` (hence strictly positive, so the
division by `sumWeights` in the convolution is well-defined). -/
theorem BuildStarPsf_sumWeights_ge_one (D ρ u : ℝ) (hD : 0 < D) (hρ : 0 < ρ)
    (hu0 : 0 ≤ u) (hu1 : u < 1) :
    (((BuildStarPsf D ρ u).1.getD ((BuildStarPsf D ρ u).1.length / 2) []).getD
        ((BuildStarPsf D ρ u).1.length / 2) 0 = 1)
    ∧ 1 ≤ (BuildStarPsf D ρ u).2 ∧ 0 < (BuildStarPsf D ρ u).2 := by
  simp only [BuildStarPsf]
  set width := psfWidth D ρ with hwidth
  set center := width / 2 with hcenter
  have hwpos : 4 ≤ width := by
    rw [hwidth]
    simp only [psfWidth]
    omega
  have hc : center < width := by omega
  have hlen : (((List.range width).map fun row : ℕ =>
      (List.range width).map fun col : ℕ => psfEntry center ρ D u row col)).length
        = width := by
    simp
  have hrow_sum : (1 : ℝ) ≤
      ((List.range width).map fun col : ℕ => psfEntry center ρ D u center col).sum := by
    apply List.single_le_sum
    · intro x hx
      obtain ⟨col, _, rfl⟩ := List.mem_map.mp hx
      exact psfEntry_nonneg center ρ D u hρ hD hu0 hu1 center col
    · refine List.mem_map.mpr ⟨center, List.mem_range.mpr hc, ?_⟩
      exact psfEntry_center center ρ D u hD
  have htot : (((List.range width).map fun col : ℕ =>
      psfEntry center ρ D u center col).sum)
      ≤ ((((List.range width).map fun row : ℕ =>
        (List.range width).map fun col : ℕ =>
          psfEntry center ρ D u row col).map List.sum).sum) := by
    apply List.single_le_sum
    · intro x hx
      rw [List.map_map] at hx
      obtain ⟨row, _, rfl⟩ := List.mem_map.mp hx
      apply List.sum_nonneg
      intro v hv
      obtain ⟨col, _, rfl⟩ := List.mem_map.mp hv
      exact psfEntry_nonneg center ρ D u hρ hD hu0 hu1 row col
    · rw [List.map_map]
      exact List.mem_map.mpr ⟨center, List.mem_range.mpr hc, rfl⟩
  refine ⟨?_, by linarith, by linarith⟩
  rw [hlen]
  rw [range_map_getD _ _ _ _ hc, range_map_getD _ _ _ _ hc]
  exact psfEntry_center center ρ D u hD

/-- Closed witness for `BuildStarPsf_sumWeights_ge_one` at
`D = 1`, `ρ = 1`, `u = 0`. -/
theorem BuildStarPsf_sumWeights_ge_one_witness :
    1 ≤ (BuildStarPsf 1 1 0).2 ∧ 0 < (BuildStarPsf 1 1 0).2 := by
  have h := BuildStarPsf_sumWeights_ge_one 1 1 0 (by norm_num) (by norm_num)
    (by norm_num) (by norm_num)
  exact ⟨h.2.1, h.2.2⟩


/-- Embedding of the magnitude-drop adjustment applied to the intensity
matrix in `main` (part_002, lines 1024-1038).  The Go code first clamps a
value above 100 down to 100 (printing a warning, modelled here by the boolean
second component) and then applies the single transform
`v ← v·(p/100) + (1 − p/100)`; the clamped value is inlined in each branch. -/
def applyMagDrop (percentMagDrop : ℝ) (intensityMatrix : List (List ℝ)) :
    List (List ℝ) × Bool :=
  if 0 < percentMagDrop then
    if 100 < percentMagDrop then
      (intensityMatrix.map fun row => row.map fun v =>
        v * ((100 : ℝ) / 100) + (1 - (100 : ℝ) / 100), true)
    else
      (intensityMatrix.map fun row => row.map fun v =>
        v * (percentMagDrop / 100) + (1 - percentMagDrop / 100), false)
  else (intensityMatrix, false)

/-- **C9.** For every intensity matrix `I` and percentage `p`: if
`0 < p ≤ 100`, every entry is replaced by `(p/100)·v + (1 − p/100)` with no
warning; if `p > 100`, `p` is clamped to `100` — leaving every entry
unchanged — and a warning is emitted without aborting; if `p ≤ 0` the matrix
is left entirely unchanged. -/
theorem applyMagDrop_cases (p : ℝ) (I : List (List ℝ)) :
    (0 < p → p ≤ 100 → applyMagDrop p I =
      (I.map fun row => row.map fun v => p / 100 * v + (1 - p / 100), false))
    ∧ (100 < p → applyMagDrop p I = (I, true))
    ∧ (p ≤ 0 → applyMagDrop p I = (I, false)) := by
  refine ⟨?_, ?_, ?_⟩
  · intro h0 h100
    unfold applyMagDrop
    rw [if_pos h0, if_neg (not_lt.mpr h100)]
    have hfun : (fun v : ℝ => v * (p / 100) + (1 - p / 100)) =
        fun v : ℝ => p / 100 * v + (1 - p / 100) := by
      funext v
      ring
    rw [hfun]
  · intro h100
    unfold applyMagDrop
    rw [if_pos (by linarith), if_pos h100]
    have hfun : (fun v : ℝ => v * ((100 : ℝ) / 100) + (1 - (100 : ℝ) / 100)) =
        fun v : ℝ => v := by
      funext v
      norm_num
    rw [hfun]
    simp
  · intro h0
    unfold applyMagDrop
    rw [if_neg (not_lt.mpr h0)]

/-- Closed witness for `applyMagDrop_cases` at `p = 50`, `p = 200`, `p = −1`
on the matrix `[[2]]`. -/
theorem applyMagDrop_cases_witness :
    applyMagDrop 50 [[(2 : ℝ)]] = ([[(3 / 2 : ℝ)]], false)
    ∧ applyMagDrop 200 [[(2 : ℝ)]] = ([[(2 : ℝ)]], true)
    ∧ applyMagDrop (-1) [[(2 : ℝ)]] = ([[(2 : ℝ)]], false) := by
  have h1 := (applyMagDrop_cases 50 [[(2 : ℝ)]]).1 (by norm_num) (by norm_num)
  have h2 := (applyMagDrop_cases 200 [[(2 : ℝ)]]).2.1 (by norm_num)
  have h3 := (applyMagDrop_cases (-1) [[(2 : ℝ)]]).2.2 (by norm_num)
  refine ⟨?_, h2, h3⟩
  rw [h1]
  norm_num

/-- Embedding of the QE-table acceptance-and-normalization step of `main`
(part_002, lines 797-824): an empty parsed table aborts the run (modelled as
an error); otherwise every weight is divided in place by the cumulative
weight sum.  No check on the sign of individual weights is performed. -/
def processQEtable (qeTable : List (ℝ × ℝ)) : Except String (List (ℝ × ℝ)) :=
  if qeTable.length < 1 then
    Except.error "The camera response file is empty."
  else
    let cumWeights := (qeTable.map fun p => p.2).sum
    Except.ok (qeTable.map fun p => (p.1, p.2 / cumWeights))

/-- **C8 (amended).** When a QE table is supplied: a table with no entries is
rejected; a table containing a weight `w ≤ 0` is NOT rejected — no positivity
check exists — and every weight is divided by the raw cumulative sum, so the
normalized weights sum to `1` exactly when the raw sum is nonzero (in
particular for every all-positive table). -/
theorem processQEtable_spec (t : List (ℝ × ℝ)) :
    (t = [] → processQEtable t =
      Except.error "The camera response file is empty.")
    ∧ (t ≠ [] → processQEtable t =
      Except.ok (t.map fun p => (p.1, p.2 / (t.map fun q => q.2).sum)))
    ∧ (t ≠ [] → (t.map fun q => q.2).sum ≠ 0 →
      ((t.map fun p => (p.1, p.2 / (t.map fun q => q.2).sum)).map
        fun p => p.2).sum = 1) := by
  refine ⟨?_, ?_, ?_⟩
  · intro h
    subst h
    rfl
  · intro h
    unfold processQEtable
    have hlen : ¬ t.length < 1 := by
      cases t with
      | nil => exact absurd rfl h
      | cons a l => simp
    rw [if_neg hlen]
  · intro h hsum
    rw [List.map_map]
    have hcomp : ((fun p : ℝ × ℝ => p.2) ∘ fun p : ℝ × ℝ =>
        (p.1, p.2 / (t.map fun q => q.2).sum)) =
        fun p : ℝ × ℝ => p.2 * ((t.map fun q => q.2).sum)⁻¹ := by
      funext p
      simp [div_eq_mul_inv]
    rw [hcomp, List.sum_map_mul_right]
    field_simp

/-- Closed witness for `processQEtable_spec`: the empty table is rejected,
and the positive table `[(500, 2), (600, 2)]` is normalized to sum `1`. -/
theorem processQEtable_spec_witness :
    (processQEtable [] = Except.error "The camera response file is empty.")
    ∧ ((([((500 : ℝ), (2 : ℝ)), (600, 2)].map fun p =>
        (p.1, p.2 / ([((500 : ℝ), (2 : ℝ)), (600, 2)].map fun q => q.2).sum)).map
          fun p => p.2).sum = 1) := by
  refine ⟨(processQEtable_spec []).1 rfl, ?_⟩
  apply (processQEtable_spec [((500 : ℝ), (2 : ℝ)), (600, 2)]).2.2
  · simp
  · norm_num

/-- **C8 counterexample.** A table containing the non-positive weight `−1` is
NOT rejected: `processQEtable` accepts it and normalizes by the raw sum `2`,
so the claim that any `w ≤ 0` is rejected is false on the code. -/
theorem processQEtable_accepts_nonpositive :
    processQEtable [((500 : ℝ), (-1 : ℝ)), (600, 3)] =
      Except.ok [((500 : ℝ), (-1 / 2 : ℝ)), (600, 3 / 2)] := by
  unfold processQEtable
  norm_num

lemma sum_mul_self_pos_left {a b : ℝ} (ha : a ≠ 0) : 0 < a * a + b * b := by
  have h1 : 0 < a * a := mul_self_pos.mpr ha
  have h2 : 0 ≤ b * b := mul_self_nonneg b
  linarith

lemma sum_mul_self_pos_right {a b : ℝ} (hb : b ≠ 0) : 0 < a * a + b * b := by
  have h1 : 0 < b * b := mul_self_pos.mpr hb
  have h2 : 0 ≤ a * a := mul_self_nonneg a
  linarith

/-- Embedding of `computePathPoints` (part_002, lines 1262-1285) /
`ComputeSamplePoints` (part_002, lines 240-260): samples at one-pixel steps
along the path from `(startX, startY)` to `(endX, endY)`.  Each sample is
`(x, y, distanceFromStart)`. -/
def computePathPoints (startX startY endX endY : ℝ) : List (ℝ × ℝ × ℝ) :=
  let xLengthPixels := endX - startX
  let yLengthPixels := endY - startY
  let pathLengthPixels :=
    Real.sqrt (xLengthPixels * xLengthPixels + yLengthPixels * yLengthPixels)
  let dYPerStep := yLengthPixels / pathLengthPixels
  let dXPerStep := xLengthPixels / pathLengthPixels
  (List.range (goRound pathLengthPixels).toNat).map fun i : ℕ =>
    (startX + (i : ℝ) * dXPerStep, startY + (i : ℝ) * dYPerStep,
      Real.sqrt ((i : ℝ) * (i : ℝ) * dXPerStep * dXPerStep +
        (i : ℝ) * (i : ℝ) * dYPerStep * dYPerStep))

/-- Closed form of the sampler under exact arithmetic: the `i`-th recorded
distance `√(i²·dX² + i²·dY²)` collapses to `i` because each step has exactly
unit length. -/
lemma computePathPoints_eq (sx sy ex ey : ℝ) (hne : ¬(ex = sx ∧ ey = sy)) :
    computePathPoints sx sy ex ey =
      (List.range (goRound (Real.sqrt ((ex - sx) * (ex - sx) +
          (ey - sy) * (ey - sy)))).toNat).map fun i : ℕ =>
        (sx + (i : ℝ) * ((ex - sx) /
            Real.sqrt ((ex - sx) * (ex - sx) + (ey - sy) * (ey - sy))),
          sy + (i : ℝ) * ((ey - sy) /
            Real.sqrt ((ex - sx) * (ex - sx) + (ey - sy) * (ey - sy))),
          (i : ℝ)) := by
  unfold computePathPoints
  apply List.map_congr_left
  intro i _
  have hS : 0 < (ex - sx) * (ex - sx) + (ey - sy) * (ey - sy) := by
    rcases not_and_or.mp hne with h | h
    · exact sum_mul_self_pos_left (sub_ne_zero.mpr h)
    · exact sum_mul_self_pos_right (sub_ne_zero.mpr h)
  set L := Real.sqrt ((ex - sx) * (ex - sx) + (ey - sy) * (ey - sy)) with hLdef
  have hL : 0 < L := Real.sqrt_pos.mpr hS
  have hL2 : L * L = (ex - sx) * (ex - sx) + (ey - sy) * (ey - sy) :=
    Real.mul_self_sqrt (le_of_lt hS)
  have harg : (i : ℝ) * (i : ℝ) * ((ex - sx) / L) * ((ex - sx) / L) +
      (i : ℝ) * (i : ℝ) * ((ey - sy) / L) * ((ey - sy) / L) =
      (i : ℝ) * (i : ℝ) := by
    field_simp
    nlinarith [hL2]
  rw [harg, Real.sqrt_mul_self (Nat.cast_nonneg i)]

/-- **C6.** For every path with distinct start and end, the sampler emits
exactly `round(Lpath)` samples; the `i`-th sample is
`(StartX + i·Δx/Lpath, StartY + i·Δy/Lpath)` with recorded distance `i`;
consecutive samples are exactly one pixel apart; and the recorded distances
strictly increase from start to end. -/
theorem computePathPoints_samples (sx sy ex ey : ℝ)
    (hne : ¬(ex = sx ∧ ey = sy)) :
    ((computePathPoints sx sy ex ey).length =
      (goRound (Real.sqrt ((ex - sx) * (ex - sx) +
        (ey - sy) * (ey - sy)))).toNat)
    ∧ (∀ i, i < (computePathPoints sx sy ex ey).length →
        (computePathPoints sx sy ex ey).getD i (0, 0, 0) =
          (sx + (i : ℝ) * ((ex - sx) /
              Real.sqrt ((ex - sx) * (ex - sx) + (ey - sy) * (ey - sy))),
            sy + (i : ℝ) * ((ey - sy) /
              Real.sqrt ((ex - sx) * (ex - sx) + (ey - sy) * (ey - sy))),
            (i : ℝ)))
    ∧ (∀ i, i + 1 < (computePathPoints sx sy ex ey).length →
        Real.sqrt
          ((((computePathPoints sx sy ex ey).getD (i + 1) (0, 0, 0)).1 -
              ((computePathPoints sx sy ex ey).getD i (0, 0, 0)).1) ^ 2 +
            (((computePathPoints sx sy ex ey).getD (i + 1) (0, 0, 0)).2.1 -
              ((computePathPoints sx sy ex ey).getD i (0, 0, 0)).2.1) ^ 2) = 1
        ∧ ((computePathPoints sx sy ex ey).getD i (0, 0, 0)).2.2 <
            ((computePathPoints sx sy ex ey).getD (i + 1) (0, 0, 0)).2.2) := by
  have hS : 0 < (ex - sx) * (ex - sx) + (ey - sy) * (ey - sy) := by
    rcases not_and_or.mp hne with h | h
    · exact sum_mul_self_pos_left (sub_ne_zero.mpr h)
    · exact sum_mul_self_pos_right (sub_ne_zero.mpr h)
  have hL : 0 < Real.sqrt ((ex - sx) * (ex - sx) + (ey - sy) * (ey - sy)) :=
    Real.sqrt_pos.mpr hS
  have hL2 : Real.sqrt ((ex - sx) * (ex - sx) + (ey - sy) * (ey - sy)) *
      Real.sqrt ((ex - sx) * (ex - sx) + (ey - sy) * (ey - sy)) =
      (ex - sx) * (ex - sx) + (ey - sy) * (ey - sy) :=
    Real.mul_self_sqrt (le_of_lt hS)
  rw [computePathPoints_eq sx sy ex ey hne]
  set L := Real.sqrt ((ex - sx) * (ex - sx) + (ey - sy) * (ey - sy)) with hLdef
  set n := (goRound L).toNat with hn
  refine ⟨by simp, ?_, ?_⟩
  · intro i hi
    simp only [List.length_map, List.length_range] at hi
    rw [range_map_getD _ _ _ _ hi]
  · intro i hi
    simp only [List.length_map, List.length_range] at hi
    rw [range_map_getD _ _ _ _ hi, range_map_getD _ _ _ _ (by omega)]
    constructor
    · have hdx : sx + ((i + 1 : ℕ) : ℝ) * ((ex - sx) / L) -
          (sx + (i : ℝ) * ((ex - sx) / L)) = (ex - sx) / L := by
        push_cast
        ring
      have hdy : sy + ((i + 1 : ℕ) : ℝ) * ((ey - sy) / L) -
          (sy + (i : ℝ) * ((ey - sy) / L)) = (ey - sy) / L := by
        push_cast
        ring
      simp only
      rw [hdx, hdy]
      have harg : ((ex - sx) / L) ^ 2 + ((ey - sy) / L) ^ 2 = 1 := by
        field_simp
        nlinarith [hL2]
      rw [harg, Real.sqrt_one]
    · simp only
      exact_mod_cast Nat.lt_succ_self i

/-- Closed witness for `computePathPoints_samples` on the path from `(0,0)`
to `(3,4)`: path length `5`, five samples, third sample `(6/5, 8/5, 2)`. -/
theorem computePathPoints_samples_witness :
    (computePathPoints 0 0 3 4).length = 5
    ∧ (computePathPoints 0 0 3 4).getD 2 (0, 0, 0) = (6 / 5, 8 / 5, 2) := by
  have h5 : Real.sqrt ((3 - 0) * (3 - 0) + (4 - 0) * (4 - 0)) = 5 := by
    rw [show ((3 - 0) * (3 - 0) + (4 - 0) * (4 - 0) : ℝ) = 5 ^ 2 by norm_num]
    exact Real.sqrt_sq (by norm_num)
  have hr : (goRound 5).toNat = 5 := by
    unfold goRound
    rw [if_pos (by norm_num)]
    have hfl : ⌊(5 : ℝ) + 1 / 2⌋ = 5 := by norm_num
    rw [hfl]
    decide
  have h := computePathPoints_samples 0 0 3 4 (by norm_num)
  obtain ⟨hlen, hval, _⟩ := h
  rw [h5, hr] at hlen
  refine ⟨hlen, ?_⟩
  have := hval 2 (by omega)
  rw [h5] at this
  rw [this]
  norm_num

/-- Embedding of `interpolate` (part_002, lines 263-304, identical copy in
openBLASmatrixMultiply.go): bilinear interpolation with clamping of the query
point into `[0, n−1−10⁻⁹]`. -/
def interpolate (matrix : List (List ℝ)) (x y : ℝ) : ℝ :=
  let n := matrix.length
  if n = 0 then 0
  else
    let xa := if x < 0 then 0 else x
    let ya := if y < 0 then 0 else y
    let xb := if ((n - 1 : ℕ) : ℝ) ≤ xa then ((n - 1 : ℕ) : ℝ) - 1e-9 else xa
    let yb := if ((n - 1 : ℕ) : ℝ) ≤ ya then ((n - 1 : ℕ) : ℝ) - 1e-9 else ya
    let x0 := goTrunc xb
    let y0 := goTrunc yb
    let xFrac := xb - (x0 : ℝ)
    let yFrac := yb - (y0 : ℝ)
    let v00 := (matrix.getD y0.toNat []).getD x0.toNat 0
    let v01 := (matrix.getD y0.toNat []).getD (x0 + 1).toNat 0
    let v10 := (matrix.getD (y0 + 1).toNat []).getD x0.toNat 0
    let v11 := (matrix.getD (y0 + 1).toNat []).getD (x0 + 1).toNat 0
    let v0 := v00 * (1 - xFrac) + v01 * xFrac
    let v1 := v10 * (1 - xFrac) + v11 * xFrac
    v0 * (1 - yFrac) + v1 * yFrac

lemma goTrunc_natCast (x : ℕ) : goTrunc (x : ℝ) = (x : ℤ) := by
  unfold goTrunc
  rw [if_pos (Nat.cast_nonneg x)]
  exact Int.floor_natCast x

/-- Bilinear interpolation at an integer query point strictly below the
clamped top edge returns the matrix entry exactly. -/
lemma interpolate_nat (M : List (List ℝ)) (x y : ℕ)
    (hx : x + 2 ≤ M.length) (hy : y + 2 ≤ M.length) :
    interpolate M (x : ℝ) (y : ℝ) = (M.getD y []).getD x 0 := by
  simp only [interpolate]
  rw [if_neg (by omega)]
  have hxa : ¬((x : ℝ) < 0) := not_lt.mpr (Nat.cast_nonneg x)
  have hya : ¬((y : ℝ) < 0) := not_lt.mpr (Nat.cast_nonneg y)
  rw [if_neg hxa, if_neg hya]
  have hxb : ¬(((M.length - 1 : ℕ) : ℝ) ≤ (x : ℝ)) := by
    push_neg
    exact_mod_cast Nat.lt_of_lt_of_le (by omega) (le_refl (M.length - 1))
  have hyb : ¬(((M.length - 1 : ℕ) : ℝ) ≤ (y : ℝ)) := by
    push_neg
    exact_mod_cast Nat.lt_of_lt_of_le (by omega) (le_refl (M.length - 1))
  rw [if_neg hxb, if_neg hyb]
  rw [goTrunc_natCast, goTrunc_natCast]
  have htn : ∀ a : ℕ, ((a : ℤ)).toNat = a := fun a => Int.toNat_natCast a
  rw [htn, htn]
  have hfrac : ∀ a : ℕ, (a : ℝ) - (((a : ℤ) : ℤ) : ℝ) = 0 := by
    intro a
    push_cast
    ring
  push_cast
  ring

/-- **C7 (amended).** Bilinear interpolation at an integer point `(x, y)` with
`0 ≤ x ≤ n−2` and `0 ≤ y ≤ n−2` returns `M[y][x]` exactly.  (At `x = n−1` or
`y = n−1` the clamp to `n−1−10⁻⁹` mixes in the neighbouring pixel, so the
result is generally not exact there.) -/
theorem interpolate_integer_exact (M : List (List ℝ)) (n x y : ℕ)
    (hlen : M.length = n) (hsq : ∀ row ∈ M, row.length = n) (h2 : 2 ≤ n)
    (hx : x + 2 ≤ n) (hy : y + 2 ≤ n) :
    interpolate M (x : ℝ) (y : ℝ) = (M.getD y []).getD x 0 := by
  apply interpolate_nat <;> omega

/-- **C7 counterexample.** On the 2×2 matrix `[[0,0],[1,1]]` the integer
query `(x, y) = (0, 1)` hits the clamped top edge: the code returns
`1 − 10⁻⁹`, not `M[1][0] = 1`, refuting exactness on the full range
`0 ≤ x, y ≤ n−1`. -/
theorem interpolate_top_edge_inexact :
    interpolate [[(0 : ℝ), 0], [1, 1]] 0 1 = 1 - 1e-9
    ∧ interpolate [[(0 : ℝ), 0], [1, 1]] 0 1 ≠
        (([[(0 : ℝ), 0], [1, 1]].getD 1 []).getD 0 0) := by
  have hg0 : goTrunc (0 : ℝ) = 0 := by
    unfold goTrunc
    rw [if_pos le_rfl]
    exact Int.floor_zero
  have hg1 : goTrunc ((999999999 : ℝ) / 1000000000) = 0 := by
    unfold goTrunc
    rw [if_pos (by norm_num)]
    rw [Int.floor_eq_iff]
    push_cast
    norm_num
  have hg1' : goTrunc ((1 : ℝ) - 1e-9) = 0 := by
    rw [show ((1 : ℝ) - 1e-9) = (999999999 : ℝ) / 1000000000 by norm_num]
    exact hg1
  have hval : interpolate [[(0 : ℝ), 0], [1, 1]] 0 1 = 1 - 1e-9 := by
    simp only [interpolate]
    norm_num [hg0, hg1, hg1', List.getD]
  refine ⟨hval, ?_⟩
  rw [hval]
  norm_num

/-- Closed witness for `interpolate_integer_exact` on the 3×3 matrix
`[[1,2,3],[4,5,6],[7,8,9]]` at `(x, y) = (1, 0)`. -/
theorem interpolate_integer_exact_witness :
    interpolate [[(1 : ℝ), 2, 3], [4, 5, 6], [7, 8, 9]] 1 0 = 2 := by
  have h := interpolate_integer_exact [[(1 : ℝ), 2, 3], [4, 5, 6], [7, 8, 9]]
    3 1 0 (by simp) (by
      intro row hrow
      simp at hrow
      rcases hrow with h | h | h <;> subst h <;> simp)
    (by norm_num) (by norm_num) (by norm_num)
  norm_num at h
  exact h

/-- The binarized interpolated shadow value at a sample point, as computed at
the top of the loop body of `FindEdgesInGeometricShadow` (pathFuncs.go lines
81-85): interpolate the geometric mask at `(x, y)` and map any positive value
to `1.0`. -/
def binarizedValue (m : List (List ℝ)) (p : ℝ × ℝ × ℝ) : ℝ :=
  let pixelValue := interpolate m p.1 p.2.1
  if 0 < pixelValue then 1 else pixelValue

/-- The toggling loop of `FindEdgesInGeometricShadow` (pathFuncs.go lines
77-92 and the identical part_002 lines 412-432), with the mutable
`colorAtNextEdge` state passed explicitly. -/
def FindEdgesAux (m : List (List ℝ)) :
    List (ℝ × ℝ × ℝ) → ℝ → List ℝ
  | [], _ => []
  | pt :: rest, colorAtNextEdge =>
    if binarizedValue m pt = colorAtNextEdge then
      pt.2.2 :: FindEdgesAux m rest (1 - colorAtNextEdge)
    else
      FindEdgesAux m rest colorAtNextEdge

/-- Embedding of `FindEdgesInGeometricShadow`: scan the sample points with
`colorAtNextEdge` initialized to `1.0`, emitting the distance-from-start of
every sample whose binarized mask value equals the current target. -/
def FindEdgesInGeometricShadow (m : List (List ℝ))
    (samplePoints : List (ℝ × ℝ × ℝ)) : List ℝ :=
  FindEdgesAux m samplePoints 1

lemma FindEdgesAux_sublist (m : List (List ℝ)) (pts : List (ℝ × ℝ × ℝ))
    (t : ℝ) :
    (FindEdgesAux m pts t).Sublist (pts.map fun p => p.2.2) := by
  induction pts generalizing t with
  | nil => simp [FindEdgesAux]
  | cons p rest ih =>
    simp only [FindEdgesAux, List.map_cons]
    split
    · exact List.Sublist.cons₂ _ (ih _)
    · exact List.Sublist.cons _ (ih _)

lemma FindEdgesAux_skip (m : List (List ℝ)) (l rest : List (ℝ × ℝ × ℝ))
    (t : ℝ) (h : ∀ p ∈ l, binarizedValue m p ≠ t) :
    FindEdgesAux m (l ++ rest) t = FindEdgesAux m rest t := by
  induction l with
  | nil => simp
  | cons p l2 ih =>
    rw [List.cons_append]
    show FindEdgesAux m (p :: (l2 ++ rest)) t = FindEdgesAux m rest t
    rw [FindEdgesAux]
    rw [if_neg (h p (List.mem_cons_self p l2))]
    exact ih fun q hq => h q (List.mem_cons_of_mem p hq)

lemma FindEdgesAux_emit (m : List (List ℝ)) (p : ℝ × ℝ × ℝ)
    (rest : List (ℝ × ℝ × ℝ)) (t : ℝ) (h : binarizedValue m p = t) :
    FindEdgesAux m (p :: rest) t = p.2.2 :: FindEdgesAux m rest (1 - t) := by
  rw [FindEdgesAux, if_pos h]

/-- **C5 (amended).** (a) For every geometric mask and every sampler-produced
sample sequence, the emitted along-path distances are non-decreasing.
(b) For sample points whose binarized shadow profile is a nonempty run of
illuminated samples, an interior-shadow run, and a final illuminated run (the
profile of a chord over a single circular occulter that starts outside it,
where the final run is empty only together with the middle one), the edge
count is `1` or `3` — the extra edge relative to the claimed `0` or `2` being
emitted at the very first sample. -/
theorem FindEdgesInGeometricShadow_props :
    (∀ (m : List (List ℝ)) (sx sy ex ey : ℝ), ¬(ex = sx ∧ ey = sy) →
      (FindEdgesInGeometricShadow m (computePathPoints sx sy ex ey)).Sorted
        (· ≤ ·))
    ∧ (∀ (m : List (List ℝ)) (q1 q2 q3 : List (ℝ × ℝ × ℝ)),
        (∀ p ∈ q1, binarizedValue m p = 1) →
        (∀ p ∈ q2, binarizedValue m p = 0) →
        (∀ p ∈ q3, binarizedValue m p = 1) →
        q1 ≠ [] → (q2 = [] ∨ q3 ≠ []) →
        (FindEdgesInGeometricShadow m (q1 ++ q2 ++ q3)).length = 1 ∨
        (FindEdgesInGeometricShadow m (q1 ++ q2 ++ q3)).length = 3) := by
  constructor
  · intro m sx sy ex ey hne
    have hsorted : ((computePathPoints sx sy ex ey).map fun p => p.2.2).Sorted
        (· ≤ ·) := by
      rw [computePathPoints_eq sx sy ex ey hne, List.map_map]
      have hcomp : ((fun p : ℝ × ℝ × ℝ => p.2.2) ∘ fun i : ℕ =>
          ((sx + (i : ℝ) * ((ex - sx) /
              Real.sqrt ((ex - sx) * (ex - sx) + (ey - sy) * (ey - sy))),
            sy + (i : ℝ) * ((ey - sy) /
              Real.sqrt ((ex - sx) * (ex - sx) + (ey - sy) * (ey - sy))),
            (i : ℝ)) : ℝ × ℝ × ℝ)) = fun i : ℕ => (i : ℝ) := by
        funext i
        rfl
      rw [hcomp]
      apply List.Pairwise.map
      · intro a b hab
        exact_mod_cast le_of_lt hab
      · exact List.pairwise_lt_range _
    exact List.Pairwise.sublist (FindEdgesAux_sublist m _ 1) hsorted
  · intro m q1 q2 q3 h1 h2 h3 hq1 hbc
    obtain ⟨p, q1', rfl⟩ : ∃ p q1', q1 = p :: q1' := by
      cases q1 with
      | nil => exact absurd rfl hq1
      | cons a l => exact ⟨a, l, rfl⟩
    unfold FindEdgesInGeometricShadow
    rw [List.cons_append, List.cons_append]
    rw [FindEdgesAux_emit m p _ 1 (h1 p (List.mem_cons_self p q1'))]
    rw [show (1 : ℝ) - 1 = 0 by norm_num]
    rw [List.append_assoc]
    rw [FindEdgesAux_skip m q1' (q2 ++ q3) 0
      (fun q hq => by
        rw [h1 q (List.mem_cons_of_mem p hq)]
        norm_num)]
    rcases hbc with h0 | h3ne
    · subst h0
      rw [List.nil_append]
      rw [show (q3 : List (ℝ × ℝ × ℝ)) = q3 ++ [] by simp]
      rw [FindEdgesAux_skip m q3 [] 0
        (fun q hq => by
          rw [h3 q hq]
          norm_num)]
      left
      rfl
    · cases hq2 : q2 with
      | nil =>
        subst hq2
        rw [List.nil_append]
        rw [show (q3 : List (ℝ × ℝ × ℝ)) = q3 ++ [] by simp]
        rw [FindEdgesAux_skip m q3 [] 0
          (fun q hq => by
            rw [h3 q hq]
            norm_num)]
        left
        rfl
      | cons p2 q2' =>
        subst hq2
        rw [List.cons_append]
        rw [FindEdgesAux_emit m p2 _ 0 (h2 p2 (List.mem_cons_self p2 q2'))]
        rw [show (1 : ℝ) - 0 = 1 by norm_num]
        rw [FindEdgesAux_skip m q2' q3 1
          (fun q hq => by
            rw [h2 q (List.mem_cons_of_mem p2 hq)]
            norm_num)]
        obtain ⟨p3, q3', rfl⟩ : ∃ p3 q3', q3 = p3 :: q3' := by
          cases q3 with
          | nil => exact absurd rfl h3ne
          | cons a l => exact ⟨a, l, rfl⟩
        rw [FindEdgesAux_emit m p3 _ 1 (h3 p3 (List.mem_cons_self p3 q3'))]
        rw [show (1 : ℝ) - 1 = 0 by norm_num]
        rw [show (q3' : List (ℝ × ℝ × ℝ)) = q3' ++ [] by simp]
        rw [FindEdgesAux_skip m q3' [] 0
          (fun q hq => by
            rw [h3 q (List.mem_cons_of_mem p3 hq)]
            norm_num)]
        right
        rfl

/-- A 10×10 geometric shadow holding a single circular occulter fully
contained in the square: the disk of radius 1.5 pixels centered at pixel
`(5, 5)` (pixels at distance ≤ 1.5 from the center are in shadow, value 0;
all others illuminated, value 1).  Its discretization is the 3×3 zero block
at rows 4-6, columns 4-6. -/
def diskMask10 : List (List ℝ) :=
  [[1, 1, 1, 1, 1, 1, 1, 1, 1, 1],
   [1, 1, 1, 1, 1, 1, 1, 1, 1, 1],
   [1, 1, 1, 1, 1, 1, 1, 1, 1, 1],
   [1, 1, 1, 1, 1, 1, 1, 1, 1, 1],
   [1, 1, 1, 1, 0, 0, 0, 1, 1, 1],
   [1, 1, 1, 1, 0, 0, 0, 1, 1, 1],
   [1, 1, 1, 1, 0, 0, 0, 1, 1, 1],
   [1, 1, 1, 1, 1, 1, 1, 1, 1, 1],
   [1, 1, 1, 1, 1, 1, 1, 1, 1, 1],
   [1, 1, 1, 1, 1, 1, 1, 1, 1, 1]]

lemma diskMask10_length : diskMask10.length = 10 := by
  unfold diskMask10
  rfl

lemma diskMask10_row5 (x : ℕ) (hx : x + 2 ≤ 10) :
    interpolate diskMask10 (x : ℝ) ((5 : ℕ) : ℝ) =
      (diskMask10.getD 5 []).getD x 0 := by
  apply interpolate_nat <;> rw [diskMask10_length] <;> omega

/-- The sample points of the horizontal chord from `(0, 5)` to `(9, 5)`. -/
lemma computePathPoints_disk_chord :
    computePathPoints 0 5 9 5 =
      [(0, 5, 0), (1, 5, 1), (2, 5, 2), (3, 5, 3), (4, 5, 4),
       (5, 5, 5), (6, 5, 6), (7, 5, 7), (8, 5, 8)] := by
  rw [computePathPoints_eq 0 5 9 5 (by norm_num)]
  have hsq : Real.sqrt ((9 - 0) * (9 - 0) + (5 - 5) * (5 - 5)) = 9 := by
    rw [show ((9 - 0) * (9 - 0) + (5 - 5) * (5 - 5) : ℝ) = 9 ^ 2 by norm_num]
    exact Real.sqrt_sq (by norm_num)
  rw [hsq]
  have hr : (goRound 9).toNat = 9 := by
    unfold goRound
    rw [if_pos (by norm_num)]
    have hfl : ⌊(9 : ℝ) + 1 / 2⌋ = 9 := by norm_num
    rw [hfl]
    decide
  rw [hr]
  have hrange : List.range 9 = [0, 1, 2, 3, 4, 5, 6, 7, 8] := rfl
  rw [hrange]
  simp only [List.map_cons, List.map_nil]
  norm_num

/-- **C5 counterexample.** On the single-disk shadow `diskMask10`, the chord
from `(0,5)` to `(9,5)` — which starts outside the occulter — produces edges
at distances `0`, `4` and `7`: three edges, not `0` or `2`.  The spurious
first edge is emitted at the path start because `colorAtNextEdge` starts at
`1.0` and the first sample is illuminated. -/
theorem FindEdgesInGeometricShadow_disk_three_edges :
    FindEdgesInGeometricShadow diskMask10 (computePathPoints 0 5 9 5) =
      [0, 4, 7] := by
  rw [computePathPoints_disk_chord]
  have hv : ∀ x : ℕ, x + 2 ≤ 10 →
      interpolate diskMask10 (x : ℝ) ((5 : ℕ) : ℝ) =
        (diskMask10.getD 5 []).getD x 0 := diskMask10_row5
  have hval : ∀ x : ℕ, x + 2 ≤ 10 → ∀ d : ℝ,
      binarizedValue diskMask10 ((x : ℝ), ((5 : ℕ) : ℝ), d) =
        (if 0 < (diskMask10.getD 5 []).getD x 0 then 1
          else (diskMask10.getD 5 []).getD x 0) := by
    intro x hx d
    unfold binarizedValue
    rw [hv x hx]
  have row5 : diskMask10.getD 5 [] = [1, 1, 1, 1, 0, 0, 0, 1, 1, 1] := by
    unfold diskMask10
    rfl
  have hone : ∀ x : ℕ, x + 2 ≤ 10 → (diskMask10.getD 5 []).getD x 0 = 1 →
      ∀ d : ℝ, binarizedValue diskMask10 ((x : ℝ), ((5 : ℕ) : ℝ), d) = 1 := by
    intro x hx hentry d
    rw [hval x hx d, hentry]
    norm_num
  have hzero : ∀ x : ℕ, x + 2 ≤ 10 → (diskMask10.getD 5 []).getD x 0 = 0 →
      ∀ d : ℝ, binarizedValue diskMask10 ((x : ℝ), ((5 : ℕ) : ℝ), d) = 0 := by
    intro x hx hentry d
    rw [hval x hx d, hentry]
    norm_num
  have e0 : binarizedValue diskMask10 (0, (5 : ℝ), 0) = 1 := by
    have := hone 0 (by norm_num) (by rw [row5]; rfl) 0
    norm_num at this
    exact this
  have e1 : binarizedValue diskMask10 (1, (5 : ℝ), 1) = 1 := by
    have := hone 1 (by norm_num) (by rw [row5]; rfl) 1
    norm_num at this
    exact this
  have e2 : binarizedValue diskMask10 (2, (5 : ℝ), 2) = 1 := by
    have := hone 2 (by norm_num) (by rw [row5]; rfl) 2
    norm_num at this
    exact this
  have e3 : binarizedValue diskMask10 (3, (5 : ℝ), 3) = 1 := by
    have := hone 3 (by norm_num) (by rw [row5]; rfl) 3
    norm_num at this
    exact this
  have e4 : binarizedValue diskMask10 (4, (5 : ℝ), 4) = 0 := by
    have := hzero 4 (by norm_num) (by rw [row5]; rfl) 4
    norm_num at this
    exact this
  have e5 : binarizedValue diskMask10 (5, (5 : ℝ), 5) = 0 := by
    have := hzero 5 (by norm_num) (by rw [row5]; rfl) 5
    norm_num at this
    exact this
  have e6 : binarizedValue diskMask10 (6, (5 : ℝ), 6) = 0 := by
    have := hzero 6 (by norm_num) (by rw [row5]; rfl) 6
    norm_num at this
    exact this
  have e7 : binarizedValue diskMask10 (7, (5 : ℝ), 7) = 1 := by
    have := hone 7 (by norm_num) (by rw [row5]; rfl) 7
    norm_num at this
    exact this
  have e8 : binarizedValue diskMask10 (8, (5 : ℝ), 8) = 1 := by
    have := hone 8 (by norm_num) (by rw [row5]; rfl) 8
    norm_num at this
    exact this
  unfold FindEdgesInGeometricShadow
  rw [FindEdgesAux, if_pos (by rw [e0])]
  rw [show (1 : ℝ) - 1 = 0 by norm_num]
  rw [FindEdgesAux, if_neg (by rw [e1]; norm_num)]
  rw [FindEdgesAux, if_neg (by rw [e2]; norm_num)]
  rw [FindEdgesAux, if_neg (by rw [e3]; norm_num)]
  rw [FindEdgesAux, if_pos (by rw [e4])]
  rw [show (1 : ℝ) - 0 = 1 by norm_num]
  rw [FindEdgesAux, if_neg (by rw [e5]; norm_num)]
  rw [FindEdgesAux, if_neg (by rw [e6]; norm_num)]
  rw [FindEdgesAux, if_pos (by rw [e7])]
  rw [show (1 : ℝ) - 1 = 0 by norm_num]
  rw [FindEdgesAux, if_neg (by rw [e8]; norm_num)]
  rw [FindEdgesAux]

/-- Closed witness for `FindEdgesInGeometricShadow_props`: sortedness on an
all-illuminated 2×2 mask along the chord `(0,0)` to `(0,3)`, and the profile
count on a one-sample illuminated profile. -/
theorem FindEdgesInGeometricShadow_props_witness :
    (FindEdgesInGeometricShadow [[(1 : ℝ), 1], [1, 1]]
      (computePathPoints 0 0 0 3)).Sorted (· ≤ ·)
    ∧ ((FindEdgesInGeometricShadow [[(1 : ℝ), 1], [1, 1]]
        ([((0 : ℝ), (0 : ℝ), (5 : ℝ))] ++ [] ++ [])).length = 1 ∨
      (FindEdgesInGeometricShadow [[(1 : ℝ), 1], [1, 1]]
        ([((0 : ℝ), (0 : ℝ), (5 : ℝ))] ++ [] ++ [])).length = 3) := by
  constructor
  · exact FindEdgesInGeometricShadow_props.1 [[(1 : ℝ), 1], [1, 1]] 0 0 0 3
      (by norm_num)
  · apply FindEdgesInGeometricShadow_props.2 [[(1 : ℝ), 1], [1, 1]]
      [((0 : ℝ), (0 : ℝ), (5 : ℝ))] [] []
    · intro p hp
      simp only [List.mem_singleton] at hp
      subst hp
      unfold binarizedValue
      have h := interpolate_nat [[(1 : ℝ), 1], [1, 1]] 0 0 (by simp) (by simp)
      norm_num at h
      rw [h]
      norm_num
    · intro p hp
      simp at hp
    · intro p hp
      simp at hp
    · simp
    · left
      rfl

/-- Convolution output-size mode of `ConvolvePSFFFT`. -/
inductive ConvMode
  | Same
  | Full
  | Valid

/-- Boundary padding mode of `ConvolvePSFFFT`. -/
inductive PaddingMode
  | Zeros
  | Reflect
  | Replicate
  | Circular

/-- The `mod` helper of part_004: Go truncated `%` followed by a sign fix. -/
def goMod (i n : ℤ) : ℤ :=
  let r := Int.tmod i n
  if r < 0 then r + n else r

/-- The `clamp` helper of part_004. -/
def clampInt (v lo hi : ℤ) : ℤ :=
  if v < lo then lo else if hi < v then hi else v

/-- The `reflectIndex` helper of part_004: reflect padding without repeating
edge pixels (period `2n − 2`). -/
def reflectIndex (i n : ℤ) : ℤ :=
  if n ≤ 1 then 0
  else
    let period := 2 * n - 2
    let j := goMod i period
    if n ≤ j then period - j else j

/-- Embedding of `rectSize` (part_004): the dimensions of a rectangular
row-of-rows matrix, or an error if rows have unequal lengths. -/
def rectSize (m : List (List ℝ)) : Except String (ℕ × ℕ) :=
  if m.length = 0 then Except.ok (0, 0)
  else
    let w := (m.getD 0 []).length
    if ∀ row ∈ m, row.length = w then Except.ok (m.length, w)
    else Except.error "ragged matrix"

/-- A row-of-rows matrix is rectangular: every row has the length of row 0. -/
def isRect (m : List (List ℝ)) : Prop :=
  ∀ row ∈ m, row.length = (m.getD 0 []).length

/-- Embedding of `sample2D` (part_004): read the image at integer
coordinates, applying the selected padding policy outside its bounds. -/
def sample2D (img : List (List ℝ)) (y x : ℤ) (mode : PaddingMode) : ℝ :=
  let H : ℤ := img.length
  let W : ℤ := (img.getD 0 []).length
  if 0 ≤ y ∧ y < H ∧ 0 ≤ x ∧ x < W then (img.getD y.toNat []).getD x.toNat 0
  else
    match mode with
    | PaddingMode.Zeros => 0
    | PaddingMode.Replicate =>
        (img.getD (clampInt y 0 (H - 1)).toNat []).getD
          (clampInt x 0 (W - 1)).toNat 0
    | PaddingMode.Reflect =>
        (img.getD (reflectIndex y H).toNat []).getD (reflectIndex x W).toNat 0
    | PaddingMode.Circular =>
        (img.getD (goMod y H).toNat []).getD (goMod x W).toNat 0

/-- Embedding of `ifftshift2D` (part_004): move the center of a centered PSF
to index `(0, 0)` by a cyclic shift of `(h/2, w/2)`. -/
def ifftshift2D (x : List (List ℝ)) : List (List ℝ) :=
  let h := x.length
  let w := (x.getD 0 []).length
  (List.range h).map fun y : ℕ =>
    (List.range w).map fun x0 : ℕ =>
      (x.getD ((y + h / 2) % h) []).getD ((x0 + w / 2) % w) 0

/-- Embedding of `nextPow2` (part_004): the smallest power of two that is at
least `n` (the Go loop `p := 1; for p < n { p <<= 1 }`). -/
def nextPow2 (n : ℕ) : ℕ := if n ≤ 1 then 1 else 2 ^ Nat.clog 2 n

/-- The FFT grid size used by `ConvolvePSFFFT`: `nextPow2`, bumped by one if
odd (only possible for `nextPow2 = 1`). -/
def evenPow2 (n : ℕ) : ℕ :=
  if nextPow2 n % 2 ≠ 0 then nextPow2 n + 1 else nextPow2 n

lemma le_nextPow2 (n : ℕ) : n ≤ nextPow2 n := by
  unfold nextPow2
  split
  · omega
  · exact Nat.le_pow_clog (by norm_num) n

lemma le_evenPow2 (n : ℕ) : n ≤ evenPow2 n := by
  unfold evenPow2
  split
  · exact le_trans (le_nextPow2 n) (by omega)
  · exact le_nextPow2 n

lemma evenPow2_pos (n : ℕ) : 0 < evenPow2 n := by
  have h1 : 1 ≤ nextPow2 n := by
    unfold nextPow2
    split
    · omega
    · exact Nat.one_le_two_pow
  unfold evenPow2
  split <;> omega

/-- The mathematical contract of the external FFT library's unnormalized
forward transform (`Coefficients`): the discrete Fourier sum
`X_k = Σ_n v_n · e^(−2πi·k·n/N)`. -/
def dft1 (N : ℕ) (v : ℕ → ℂ) (k : ℕ) : ℂ :=
  ∑ n ∈ Finset.range N,
    v n * Complex.exp (-(2 * (Real.pi : ℂ) * Complex.I) * k * n / N)

/-- The unnormalized inverse transform (`Sequence`):
`x_n = Σ_k X_k · e^(2πi·k·n/N)`; forward-then-inverse multiplies by `N`. -/
def idft1 (N : ℕ) (v : ℕ → ℂ) (k : ℕ) : ℂ :=
  ∑ n ∈ Finset.range N,
    v n * Complex.exp ((2 * (Real.pi : ℂ) * Complex.I) * k * n / N)

/-- 2D forward FFT as `fft2InPlace` performs it: rows first, then columns. -/
def fft2 (h w : ℕ) (a : ℕ → ℕ → ℂ) : ℕ → ℕ → ℂ :=
  fun ky kx => dft1 h (fun y => dft1 w (a y) kx) ky

/-- 2D inverse FFT: rows first, then columns, both unnormalized. -/
def ifft2 (h w : ℕ) (a : ℕ → ℕ → ℂ) : ℕ → ℕ → ℂ :=
  fun y x => idft1 h (fun ky => idft1 w (a ky) x) y

/-- Geometric sum of the `N`-th roots of unity at integer frequency `d`:
`N` when `N ∣ d`, else `0`. -/
lemma sum_exp_int (N : ℕ) (hN : 0 < N) (d : ℤ) :
    ∑ k ∈ Finset.range N,
      Complex.exp ((2 * (Real.pi : ℂ) * Complex.I) * d * k / N) =
      if (N : ℤ) ∣ d then (N : ℂ) else 0 := by
  have hNC : (N : ℂ) ≠ 0 := Nat.cast_ne_zero.mpr (by omega)
  have hterm : ∀ k : ℕ,
      Complex.exp ((2 * (Real.pi : ℂ) * Complex.I) * d * k / N) =
      Complex.exp ((2 * (Real.pi : ℂ) * Complex.I) * d / N) ^ k := by
    intro k
    rw [← Complex.exp_nat_mul]
    congr 1
    ring
  rw [Finset.sum_congr rfl fun k _ => hterm k]
  by_cases hdvd : (N : ℤ) ∣ d
  · obtain ⟨m, hm⟩ := hdvd
    have hω1 : Complex.exp ((2 * (Real.pi : ℂ) * Complex.I) * d / N) = 1 := by
      have harg : (2 * (Real.pi : ℂ) * Complex.I) * d / N =
          (m : ℂ) * (2 * (Real.pi : ℂ) * Complex.I) := by
        rw [hm]
        push_cast
        field_simp
        ring
      rw [harg]
      exact Complex.exp_int_mul_two_pi_mul_I m
    rw [hω1, if_pos ⟨m, hm⟩]
    simp
  · have hω1 : Complex.exp ((2 * (Real.pi : ℂ) * Complex.I) * d / N) ≠ 1 := by
      intro hcon
      rw [Complex.exp_eq_one_iff] at hcon
      obtain ⟨n, hn⟩ := hcon
      apply hdvd
      refine ⟨n, ?_⟩
      have h2πI : (2 * (Real.pi : ℂ) * Complex.I) ≠ 0 := by
        apply mul_ne_zero
        apply mul_ne_zero
        · norm_num
        · exact_mod_cast Real.pi_ne_zero
        · exact Complex.I_ne_zero
      have hd : (d : ℂ) = (N : ℂ) * n := by
        field_simp at hn
        have := hn
        calc (d : ℂ) = (2 * (Real.pi : ℂ) * Complex.I) * d /
              (2 * (Real.pi : ℂ) * Complex.I) := by
              field_simp
          _ = (N : ℂ) * n := by
              rw [hn]
              field_simp
              ring
      exact_mod_cast hd
    rw [geom_sum_eq hω1]
    have hωN : Complex.exp ((2 * (Real.pi : ℂ) * Complex.I) * d / N) ^ N = 1 := by
      rw [← Complex.exp_nat_mul]
      have harg : (N : ℂ) * ((2 * (Real.pi : ℂ) * Complex.I) * d / N) =
          (d : ℂ) * (2 * (Real.pi : ℂ) * Complex.I) := by
        field_simp
        ring
      rw [harg]
      exact Complex.exp_int_mul_two_pi_mul_I d
    rw [hωN, if_neg hdvd]
    simp

/-- Unnormalized inverse DFT of a forward DFT multiplied by the spectrum of a
delta at position `r`: recovers `N` times the input cyclically shifted by
`r`. -/
lemma idft1_dft1_twist (N : ℕ) (hN : 0 < N) (v : ℕ → ℂ) (r y : ℕ) :
    idft1 N (fun k => dft1 N v k *
        Complex.exp (-(2 * (Real.pi : ℂ) * Complex.I) * k * r / N)) y =
      (N : ℂ) * v (((y : ℤ) - r) % (N : ℤ)).toNat := by
  have hNC : (N : ℂ) ≠ 0 := Nat.cast_ne_zero.mpr (by omega)
  simp only [idft1, dft1]
  have step1 : ∀ k ∈ Finset.range N,
      ((∑ n ∈ Finset.range N,
          v n * Complex.exp (-(2 * (Real.pi : ℂ) * Complex.I) * k * n / N)) *
        Complex.exp (-(2 * (Real.pi : ℂ) * Complex.I) * k * r / N)) *
        Complex.exp ((2 * (Real.pi : ℂ) * Complex.I) * y * k / N) =
      ∑ n ∈ Finset.range N, v n *
        Complex.exp ((2 * (Real.pi : ℂ) * Complex.I) *
          (((y : ℤ) - r - n : ℤ) : ℂ) * k / N) := by
    intro k _
    rw [Finset.sum_mul, Finset.sum_mul]
    apply Finset.sum_congr rfl
    intro n _
    rw [mul_assoc (v n), mul_assoc (v n)]
    congr 1
    rw [← Complex.exp_add, ← Complex.exp_add]
    congr 1
    push_cast
    field_simp
    ring
  rw [Finset.sum_congr rfl step1]
  rw [Finset.sum_comm]
  have step2 : ∀ n ∈ Finset.range N,
      (∑ k ∈ Finset.range N, v n *
        Complex.exp ((2 * (Real.pi : ℂ) * Complex.I) *
          (((y : ℤ) - r - n : ℤ) : ℂ) * k / N)) =
      v n * (if (N : ℤ) ∣ ((y : ℤ) - r - n) then (N : ℂ) else 0) := by
    intro n _
    rw [← Finset.mul_sum]
    rw [sum_exp_int N hN ((y : ℤ) - r - n)]
  rw [Finset.sum_congr rfl step2]
  set n0 : ℕ := (((y : ℤ) - r) % (N : ℤ)).toNat with hn0
  have hNno : (N : ℤ) ≠ 0 := by exact_mod_cast (by omega : N ≠ 0)
  have hn0lt : n0 < N := by
    have h1 : 0 ≤ ((y : ℤ) - r) % (N : ℤ) := Int.emod_nonneg _ hNno
    have h2 : ((y : ℤ) - r) % (N : ℤ) < N := Int.emod_lt_of_pos _ (by exact_mod_cast hN)
    omega
  have hcond : ∀ n ∈ Finset.range N,
      ((N : ℤ) ∣ ((y : ℤ) - r - n)) ↔ n = n0 := by
    intro n hn
    rw [Finset.mem_range] at hn
    have hmodnn : 0 ≤ ((y : ℤ) - r) % (N : ℤ) := Int.emod_nonneg _ hNno
    constructor
    · intro hd
      obtain ⟨c, hc⟩ := hd
      have h1 : (y : ℤ) - r = (n : ℤ) + (N : ℤ) * c := by linarith
      have h2 : ((y : ℤ) - r) % (N : ℤ) = n := by
        rw [h1, Int.add_mul_emod_self_left]
        exact Int.emod_eq_of_lt (by positivity) (by exact_mod_cast hn)
      omega
    · intro he
      subst he
      refine ⟨((y : ℤ) - r) / N, ?_⟩
      have h2 := Int.ediv_add_emod ((y : ℤ) - r) N
      rw [Int.toNat_of_nonneg hmodnn]
      linarith
  have step3 : ∀ n ∈ Finset.range N,
      v n * (if (N : ℤ) ∣ ((y : ℤ) - r - n) then (N : ℂ) else 0) =
      if n = n0 then v n * N else 0 := by
    intro n hn
    by_cases hd : (N : ℤ) ∣ ((y : ℤ) - r - n)
    · rw [if_pos hd, if_pos ((hcond n hn).mp hd)]
    · rw [if_neg hd, if_neg (fun he => hd ((hcond n hn).mpr he)), mul_zero]
  rw [Finset.sum_congr rfl step3]
  rw [Finset.sum_ite_eq' (Finset.range N) n0 fun n => v n * N]
  rw [if_pos (Finset.mem_range.mpr hn0lt)]
  ring

/-- The row-then-column 2D transform equals a column transform of the
column-wise row-transformed data (sum exchange). -/
lemma fft2_eq_dft1_col (h w : ℕ) (a : ℕ → ℕ → ℂ) (ky kx : ℕ) :
    fft2 h w a ky kx =
      dft1 w (fun xx => ∑ yy ∈ Finset.range h,
        a yy xx *
          Complex.exp (-(2 * (Real.pi : ℂ) * Complex.I) * ky * yy / h)) kx := by
  simp only [fft2, dft1]
  simp_rw [Finset.sum_mul]
  rw [Finset.sum_comm]
  apply Finset.sum_congr rfl
  intro x _
  apply Finset.sum_congr rfl
  intro y _
  ring

/-- The 2D spectrum of a delta grid at `(r, s)` is the product of two
complex exponentials. -/
lemma fft2_delta (h w : ℕ) (r s : ℕ) (hr : r < h) (hs : s < w)
    (B : ℕ → ℕ → ℂ) (hB : ∀ y x, B y x = if y = r ∧ x = s then 1 else 0)
    (ky kx : ℕ) :
    fft2 h w B ky kx =
      Complex.exp (-(2 * (Real.pi : ℂ) * Complex.I) * ky * r / h) *
        Complex.exp (-(2 * (Real.pi : ℂ) * Complex.I) * kx * s / w) := by
  simp only [fft2, dft1]
  have hinner : ∀ y : ℕ,
      (∑ x ∈ Finset.range w, B y x *
        Complex.exp (-(2 * (Real.pi : ℂ) * Complex.I) * kx * x / w)) =
      if y = r then
        Complex.exp (-(2 * (Real.pi : ℂ) * Complex.I) * kx * s / w)
      else 0 := by
    intro y
    by_cases hy : y = r
    · subst hy
      rw [if_pos rfl]
      have hterm : ∀ x ∈ Finset.range w, B y x *
          Complex.exp (-(2 * (Real.pi : ℂ) * Complex.I) * kx * x / w) =
          if x = s then
            Complex.exp (-(2 * (Real.pi : ℂ) * Complex.I) * kx * x / w)
          else 0 := by
        intro x _
        rw [hB]
        by_cases hx : x = s
        · rw [if_pos hx, if_pos ⟨rfl, hx⟩, one_mul]
        · rw [if_neg hx, if_neg fun hc => hx hc.2, zero_mul]
      rw [Finset.sum_congr rfl hterm]
      rw [Finset.sum_ite_eq' (Finset.range w) s fun x =>
        Complex.exp (-(2 * (Real.pi : ℂ) * Complex.I) * kx * x / w)]
      rw [if_pos (Finset.mem_range.mpr hs)]
    · rw [if_neg hy]
      apply Finset.sum_eq_zero
      intro x _
      rw [hB, if_neg fun hc => hy hc.1, zero_mul]
  have houter : ∀ y ∈ Finset.range h,
      (∑ x ∈ Finset.range w, B y x *
        Complex.exp (-(2 * (Real.pi : ℂ) * Complex.I) * kx * x / w)) *
        Complex.exp (-(2 * (Real.pi : ℂ) * Complex.I) * ky * y / h) =
      (if y = r then
        Complex.exp (-(2 * (Real.pi : ℂ) * Complex.I) * kx * s / w)
      else 0) *
        Complex.exp (-(2 * (Real.pi : ℂ) * Complex.I) * ky * y / h) := by
    intro y _
    rw [hinner y]
  rw [Finset.sum_congr rfl houter]
  have hterm2 : ∀ y ∈ Finset.range h,
      (if y = r then
        Complex.exp (-(2 * (Real.pi : ℂ) * Complex.I) * kx * s / w)
      else 0) *
        Complex.exp (-(2 * (Real.pi : ℂ) * Complex.I) * ky * y / h) =
      if y = r then
        Complex.exp (-(2 * (Real.pi : ℂ) * Complex.I) * kx * s / w) *
          Complex.exp (-(2 * (Real.pi : ℂ) * Complex.I) * ky * y / h)
      else 0 := by
    intro y _
    by_cases hy : y = r
    · rw [if_pos hy, if_pos hy]
    · rw [if_neg hy, if_neg hy, zero_mul]
  rw [Finset.sum_congr rfl hterm2]
  rw [Finset.sum_ite_eq' (Finset.range h) r fun y =>
    Complex.exp (-(2 * (Real.pi : ℂ) * Complex.I) * kx * s / w) *
      Complex.exp (-(2 * (Real.pi : ℂ) * Complex.I) * ky * y / h)]
  rw [if_pos (Finset.mem_range.mpr hr)]
  ring

/-- Forward 2D FFT, pointwise product with the spectrum of a delta at
`(r, s)`, inverse 2D FFT: yields `h·w` times the input grid cyclically
shifted by `(r, s)` — the heart of the FFT convolution with a delta PSF. -/
lemma conv_delta (h w : ℕ) (hh : 0 < h) (hw : 0 < w) (A : ℕ → ℕ → ℂ)
    (r s : ℕ) (hr : r < h) (hs : s < w) (B : ℕ → ℕ → ℂ)
    (hB : ∀ y x, B y x = if y = r ∧ x = s then 1 else 0) (y x : ℕ) :
    ifft2 h w (fun ky kx => fft2 h w A ky kx * fft2 h w B ky kx) y x =
      ((h : ℂ) * w) *
        A ((((y : ℤ) - r) % (h : ℤ)).toNat) ((((x : ℤ) - s) % (w : ℤ)).toNat) := by
  have hx0 : ∀ ky : ℕ,
      idft1 w (fun kx => fft2 h w A ky kx * fft2 h w B ky kx) x =
      ((w : ℂ) * (∑ yy ∈ Finset.range h,
          A yy ((((x : ℤ) - s) % (w : ℤ)).toNat) *
            Complex.exp (-(2 * (Real.pi : ℂ) * Complex.I) * ky * yy / h))) *
        Complex.exp (-(2 * (Real.pi : ℂ) * Complex.I) * ky * r / h) := by
    intro ky
    have heq : (fun kx => fft2 h w A ky kx * fft2 h w B ky kx) =
        fun kx => (dft1 w (fun xx => ∑ yy ∈ Finset.range h,
          A yy xx *
            Complex.exp (-(2 * (Real.pi : ℂ) * Complex.I) * ky * yy / h)) kx *
          Complex.exp (-(2 * (Real.pi : ℂ) * Complex.I) * kx * s / w)) *
          Complex.exp (-(2 * (Real.pi : ℂ) * Complex.I) * ky * r / h) := by
      funext kx
      rw [fft2_eq_dft1_col, fft2_delta h w r s hr hs B hB]
      ring
    rw [heq]
    have hpull : idft1 w (fun kx =>
        (dft1 w (fun xx => ∑ yy ∈ Finset.range h,
          A yy xx *
            Complex.exp (-(2 * (Real.pi : ℂ) * Complex.I) * ky * yy / h)) kx *
          Complex.exp (-(2 * (Real.pi : ℂ) * Complex.I) * kx * s / w)) *
          Complex.exp (-(2 * (Real.pi : ℂ) * Complex.I) * ky * r / h)) x =
        idft1 w (fun kx =>
          dft1 w (fun xx => ∑ yy ∈ Finset.range h,
            A yy xx *
              Complex.exp (-(2 * (Real.pi : ℂ) * Complex.I) * ky * yy / h)) kx *
            Complex.exp (-(2 * (Real.pi : ℂ) * Complex.I) * kx * s / w)) x *
          Complex.exp (-(2 * (Real.pi : ℂ) * Complex.I) * ky * r / h) := by
      simp only [idft1]
      rw [Finset.sum_mul]
      apply Finset.sum_congr rfl
      intro kx _
      ring
    rw [hpull]
    rw [idft1_dft1_twist w hw _ s x]
  unfold ifft2
  rw [show (fun ky : ℕ => idft1 w (fun kx =>
      fft2 h w A ky kx * fft2 h w B ky kx) x) = fun ky : ℕ =>
      ((w : ℂ) * (∑ yy ∈ Finset.range h,
          A yy ((((x : ℤ) - s) % (w : ℤ)).toNat) *
            Complex.exp (-(2 * (Real.pi : ℂ) * Complex.I) * ky * yy / h))) *
        Complex.exp (-(2 * (Real.pi : ℂ) * Complex.I) * ky * r / h)
    from funext hx0]
  have hpull2 : idft1 h (fun ky : ℕ =>
      ((w : ℂ) * (∑ yy ∈ Finset.range h,
          A yy ((((x : ℤ) - s) % (w : ℤ)).toNat) *
            Complex.exp (-(2 * (Real.pi : ℂ) * Complex.I) * ky * yy / h))) *
        Complex.exp (-(2 * (Real.pi : ℂ) * Complex.I) * ky * r / h)) y =
      (w : ℂ) * idft1 h (fun ky : ℕ =>
        dft1 h (fun yy => A yy ((((x : ℤ) - s) % (w : ℤ)).toNat)) ky *
          Complex.exp (-(2 * (Real.pi : ℂ) * Complex.I) * ky * r / h)) y := by
    simp only [idft1, dft1]
    rw [Finset.mul_sum]
    apply Finset.sum_congr rfl
    intro ky _
    ring
  rw [hpull2]
  rw [idft1_dft1_twist h hh _ r y]
  ring

/-- The padded image FFT grid `A` of `ConvolvePSFFFT`: the image sampled
under the chosen padding policy (filled for all grid indices; the transform
reads only indices below the grid size). -/
def gridA (image : List (List ℝ)) (pad : PaddingMode) : ℕ → ℕ → ℂ :=
  fun y x => ((sample2D image (y : ℤ) (x : ℤ) pad : ℝ) : ℂ)

/-- The PSF FFT grid `B` of `ConvolvePSFFFT`: the PSF — `ifftshift`ed when
`centeredPsf` — in the top-left `Ph×Pw` region, zero elsewhere. -/
def gridB (psf : List (List ℝ)) (Ph Pw : ℕ) (centeredPsf : Bool) :
    ℕ → ℕ → ℂ :=
  fun y x =>
    if y < Ph ∧ x < Pw then
      ((((if centeredPsf then ifftshift2D psf else psf).getD y []).getD x 0 : ℝ) : ℂ)
    else 0

/-- One entry of the full-size convolution result before cropping: inverse
FFT of the product of the two spectra, real part, divided by `FH·FW` and by
the PSF weight sum. -/
def convFullEntry (image psf : List (List ℝ)) (starSum : ℝ)
    (pad : PaddingMode) (centeredPsf : Bool) (H W Ph Pw y x : ℕ) : ℝ :=
  let FH := evenPow2 (H + Ph - 1)
  let FW := evenPow2 (W + Pw - 1)
  (ifft2 FH FW (fun ky kx =>
      fft2 FH FW (gridA image pad) ky kx *
        fft2 FH FW (gridB psf Ph Pw centeredPsf) ky kx) y x).re /
    ((FH * FW : ℕ) : ℝ) / starSum

/-- The `(H+Ph−1)×(W+Pw−1)` full convolution result of `ConvolvePSFFFT`. -/
def convFull (image psf : List (List ℝ)) (starSum : ℝ) (pad : PaddingMode)
    (centeredPsf : Bool) (H W Ph Pw : ℕ) : List (List ℝ) :=
  (List.range (H + Ph - 1)).map fun y : ℕ =>
    (List.range (W + Pw - 1)).map fun x : ℕ =>
      convFullEntry image psf starSum pad centeredPsf H W Ph Pw y x

/-- Embedding of `ConvolvePSFFFT` (part_004, lines 70-203).  The FFT pair is
modelled by the exact unnormalized DFT (the documented contract of the
external library); validation, grid construction, spectral multiplication,
scaling and cropping follow the Go control flow. -/
def convolvePSFFFT (image psf : List (List ℝ)) (starSum : ℝ)
    (mode : ConvMode) (pad : PaddingMode) (centeredPsf : Bool) :
    Except String (List (List ℝ)) :=
  match rectSize image with
  | Except.error e => Except.error e
  | Except.ok (H, W) =>
    match rectSize psf with
    | Except.error e => Except.error e
    | Except.ok (Ph, Pw) =>
      if H = 0 ∨ W = 0 ∨ Ph = 0 ∨ Pw = 0 then
        Except.error "empty image or psf"
      else
        match (match mode with
          | ConvMode.Same => Except.ok (H, W)
          | ConvMode.Full => Except.ok (H + Ph - 1, W + Pw - 1)
          | ConvMode.Valid =>
            if H < Ph ∨ W < Pw then
              Except.error "valid convolution requested but psf larger than image"
            else Except.ok (H - Ph + 1, W - Pw + 1) :
          Except String (ℕ × ℕ)) with
        | Except.error e => Except.error e
        | Except.ok (outH, outW) =>
          let full := convFull image psf starSum pad centeredPsf H W Ph Pw
          match mode with
          | ConvMode.Full => Except.ok full
          | ConvMode.Same =>
            Except.ok ((List.range H).map fun y : ℕ =>
              (List.range W).map fun x : ℕ =>
                (full.getD (y + Ph / 2) []).getD (x + Pw / 2) 0)
          | ConvMode.Valid =>
            Except.ok ((List.range outH).map fun y : ℕ =>
              (List.range outW).map fun x : ℕ =>
                (full.getD (y + (Ph - 1)) []).getD (x + (Pw - 1)) 0)

lemma rectSize_rect (m : List (List ℝ)) (h : isRect m) :
    rectSize m = Except.ok (m.length, (m.getD 0 []).length) := by
  have h' : ∀ row ∈ m, row.length = (m.getD 0 []).length := h
  simp only [rectSize]
  by_cases h0 : m.length = 0
  · rw [if_pos h0]
    have hm : m = [] := List.length_eq_zero.mp h0
    subst hm
    rfl
  · rw [if_neg h0, if_pos h']

lemma rectSize_ragged (m : List (List ℝ)) (h : ¬isRect m) :
    rectSize m = Except.error "ragged matrix" := by
  have h' : ¬∀ row ∈ m, row.length = (m.getD 0 []).length := h
  simp only [rectSize]
  have h0 : m.length ≠ 0 := by
    intro hl
    apply h
    have hm : m = [] := List.length_eq_zero.mp hl
    subst hm
    intro row hrow
    cases hrow
  rw [if_neg h0, if_neg h']

lemma rectSize_ok_elim (m : List (List ℝ)) (H W : ℕ)
    (h : rectSize m = Except.ok (H, W)) :
    m.length = H ∧ ∀ row ∈ m, row.length = W := by
  unfold rectSize at h
  by_cases h0 : m.length = 0
  · rw [if_pos h0] at h
    have hm : m = [] := List.length_eq_zero.mp h0
    subst hm
    simp only [Except.ok.injEq, Prod.mk.injEq] at h
    refine ⟨h.1.symm ▸ rfl, ?_⟩
    intro row hrow
    cases hrow
  · rw [if_neg h0] at h
    by_cases hall : ∀ row ∈ m, row.length = (m.getD 0 []).length
    · rw [if_pos hall] at h
      simp only [Except.ok.injEq, Prod.mk.injEq] at h
      exact ⟨h.1, fun row hrow => h.2 ▸ hall row hrow⟩
    · rw [if_neg hall] at h
      cases h

/-- Characterization of the `Same`-mode success path of `convolvePSFFFT`:
the cropped full result, entry by entry. -/
lemma convolve_same_ok (image psf : List (List ℝ)) (starSum : ℝ)
    (pad : PaddingMode) (centered : Bool) (H W Ph Pw : ℕ)
    (h1 : rectSize image = Except.ok (H, W))
    (h2 : rectSize psf = Except.ok (Ph, Pw))
    (hH : 0 < H) (hW : 0 < W) (hPh : 0 < Ph) (hPw : 0 < Pw) :
    convolvePSFFFT image psf starSum ConvMode.Same pad centered =
      Except.ok ((List.range H).map fun y : ℕ =>
        (List.range W).map fun x : ℕ =>
          convFullEntry image psf starSum pad centered H W Ph Pw
            (y + Ph / 2) (x + Pw / 2)) := by
  unfold convolvePSFFFT
  rw [h1, h2]
  dsimp only
  rw [if_neg (show ¬(H = 0 ∨ W = 0 ∨ Ph = 0 ∨ Pw = 0) by omega)]
  congr 1
  apply List.map_congr_left
  intro y hy
  apply List.map_congr_left
  intro x hx
  rw [List.mem_range] at hy hx
  unfold convFull
  rw [range_map_getD _ _ _ _ (by omega), range_map_getD _ _ _ _ (by omega)]

/-- An odd-sized delta-function PSF: `(2c+1)×(2c+1)` with a single `1` at the
center pixel `(c, c)`. -/
def deltaPsf (c : ℕ) : List (List ℝ) :=
  (List.range (2 * c + 1)).map fun row : ℕ =>
    (List.range (2 * c + 1)).map fun col : ℕ =>
      if row = c ∧ col = c then 1 else 0

lemma deltaPsf_rectSize (c : ℕ) :
    rectSize (deltaPsf c) = Except.ok (2 * c + 1, 2 * c + 1) := by
  have hrow0 : ((deltaPsf c).getD 0 []).length = 2 * c + 1 := by
    unfold deltaPsf
    rw [range_map_getD _ _ _ _ (by omega)]
    rw [List.length_map, List.length_range]
  have hrect : isRect (deltaPsf c) := by
    intro row hrow
    rw [hrow0]
    unfold deltaPsf at hrow
    obtain ⟨i, hi, rfl⟩ := List.mem_map.mp hrow
    rw [List.length_map, List.length_range]
  rw [rectSize_rect _ hrect, hrow0]
  unfold deltaPsf
  rw [List.length_map, List.length_range]

lemma gridB_deltaPsf (c : ℕ) : ∀ y x : ℕ,
    gridB (deltaPsf c) (2 * c + 1) (2 * c + 1) false y x =
      if y = c ∧ x = c then 1 else 0 := by
  intro y x
  unfold gridB
  simp only [Bool.false_eq_true, if_false]
  by_cases hy : y < 2 * c + 1
  · by_cases hx2 : x < 2 * c + 1
    · rw [if_pos ⟨hy, hx2⟩]
      unfold deltaPsf
      rw [range_map_getD _ _ _ _ hy, range_map_getD _ _ _ _ hx2]
      by_cases hc : y = c ∧ x = c
      · rw [if_pos hc, if_pos hc]
        norm_num
      · rw [if_neg hc, if_neg hc]
        norm_num
    · rw [if_neg (by tauto), if_neg (by omega)]
  · rw [if_neg (by tauto), if_neg (by omega)]

lemma sample2D_inbounds (img : List (List ℝ)) (pad : PaddingMode) (y x : ℕ)
    (hy : y < img.length) (hx : x < (img.getD 0 []).length) :
    sample2D img (y : ℤ) (x : ℤ) pad = (img.getD y []).getD x 0 := by
  unfold sample2D
  rw [if_pos]
  · rw [Int.toNat_natCast, Int.toNat_natCast]
  · refine ⟨by positivity, by exact_mod_cast hy, by positivity, by exact_mod_cast hx⟩

lemma sample2D_zeros_oob (img : List (List ℝ)) (y x : ℕ)
    (h : img.length ≤ y ∨ (img.getD 0 []).length ≤ x) :
    sample2D img (y : ℤ) (x : ℤ) PaddingMode.Zeros = 0 := by
  unfold sample2D
  have hnc : ¬(0 ≤ (y : ℤ) ∧ (y : ℤ) < (img.length : ℤ) ∧ 0 ≤ (x : ℤ) ∧
      (x : ℤ) < ((img.getD 0 []).length : ℤ)) := by
    rintro ⟨h0, hlt1, hmid, hlt2⟩
    omega
  rw [if_neg hnc]

lemma list_reconstruct (m : List (List ℝ)) (H W : ℕ) (hlen : m.length = H)
    (hrows : ∀ row ∈ m, row.length = W) :
    ((List.range H).map fun y : ℕ => (List.range W).map fun x : ℕ =>
      (m.getD y []).getD x 0) = m := by
  apply List.ext_getElem
  · rw [List.length_map, List.length_range, hlen]
  · intro i h1 h2
    rw [List.getElem_map, List.getElem_range]
    have hmi : m.getD i [] = m[i] := by
      rw [List.getD_eq_getElem?_getD, List.getElem?_eq_getElem h2]
      rfl
    apply List.ext_getElem
    · rw [List.length_map, List.length_range]
      exact (hrows m[i] (List.getElem_mem h2)).symm
    · intro j hj1 hj2
      rw [List.getElem_map, List.getElem_range, hmi]
      rw [List.getD_eq_getElem?_getD, List.getElem?_eq_getElem hj2]
      rfl

/-- **C3 (amended).** For every non-empty rectangular `H×W` real image and
every odd delta PSF (`1` at its center pixel, `0` elsewhere) with
`sumWeights = 1`, `ConvolvePSFFFT` in `Same` mode with `Zeros` padding and
the PSF embedded as-is (`centeredPsf = false`, exactly as the main program
calls it) returns the input image exactly under exact real arithmetic. -/
theorem convolve_delta_same_identity (image : List (List ℝ)) (H W c : ℕ)
    (h1 : rectSize image = Except.ok (H, W)) (hH : 0 < H) (hW : 0 < W) :
    convolvePSFFFT image (deltaPsf c) 1 ConvMode.Same PaddingMode.Zeros false =
      Except.ok image := by
  have h2 := deltaPsf_rectSize c
  rw [convolve_same_ok image (deltaPsf c) 1 PaddingMode.Zeros false H W
    (2 * c + 1) (2 * c + 1) h1 h2 hH hW (by omega) (by omega)]
  obtain ⟨hlen, hrows⟩ := rectSize_ok_elim image H W h1
  have hrow0 : (image.getD 0 []).length = W := by
    have h0 : image ≠ [] := by
      intro hh
      subst hh
      simp at hlen
      omega
    obtain ⟨a, t, rfl⟩ := List.exists_cons_of_ne_nil h0
    exact hrows a (List.mem_cons_self a t)
  have hmain : ((List.range H).map fun y : ℕ => (List.range W).map fun x : ℕ =>
      convFullEntry image (deltaPsf c) 1 PaddingMode.Zeros false H W
        (2 * c + 1) (2 * c + 1) (y + (2 * c + 1) / 2) (x + (2 * c + 1) / 2)) =
      (List.range H).map fun y : ℕ => (List.range W).map fun x : ℕ =>
        (image.getD y []).getD x 0 := by
    apply List.map_congr_left
    intro y hy
    apply List.map_congr_left
    intro x hx
    rw [List.mem_range] at hy hx
    have hc2 : (2 * c + 1) / 2 = c := by omega
    rw [hc2]
    simp only [convFullEntry]
    have hFHge : H + 2 * c ≤ evenPow2 (H + (2 * c + 1) - 1) := by
      have := le_evenPow2 (H + (2 * c + 1) - 1)
      omega
    have hFWge : W + 2 * c ≤ evenPow2 (W + (2 * c + 1) - 1) := by
      have := le_evenPow2 (W + (2 * c + 1) - 1)
      omega
    have hFH0 : 0 < evenPow2 (H + (2 * c + 1) - 1) := evenPow2_pos _
    have hFW0 : 0 < evenPow2 (W + (2 * c + 1) - 1) := evenPow2_pos _
    rw [conv_delta (evenPow2 (H + (2 * c + 1) - 1)) (evenPow2 (W + (2 * c + 1) - 1))
      hFH0 hFW0 (gridA image PaddingMode.Zeros) c c
      (by omega) (by omega) (gridB (deltaPsf c) (2 * c + 1) (2 * c + 1) false)
      (gridB_deltaPsf c) (y + c) (x + c)]
    have hidx1 : (((y + c : ℕ) : ℤ) - (c : ℤ)) %
        ((evenPow2 (H + (2 * c + 1) - 1) : ℕ) : ℤ) = ((y : ℕ) : ℤ) := by
      have he : ((y + c : ℕ) : ℤ) - (c : ℤ) = ((y : ℕ) : ℤ) := by
        push_cast
        ring
      rw [he]
      apply Int.emod_eq_of_lt (by positivity)
      have hlt : y < evenPow2 (H + (2 * c + 1) - 1) := by omega
      exact_mod_cast hlt
    have hidx2 : (((x + c : ℕ) : ℤ) - (c : ℤ)) %
        ((evenPow2 (W + (2 * c + 1) - 1) : ℕ) : ℤ) = ((x : ℕ) : ℤ) := by
      have he : ((x + c : ℕ) : ℤ) - (c : ℤ) = ((x : ℕ) : ℤ) := by
        push_cast
        ring
      rw [he]
      apply Int.emod_eq_of_lt (by positivity)
      have hlt : x < evenPow2 (W + (2 * c + 1) - 1) := by omega
      exact_mod_cast hlt
    rw [hidx1, hidx2, Int.toNat_natCast, Int.toNat_natCast]
    unfold gridA
    rw [sample2D_inbounds image PaddingMode.Zeros y x (by omega) (by omega)]
    have hre : (((evenPow2 (H + (2 * c + 1) - 1) : ℕ) : ℂ) *
        ((evenPow2 (W + (2 * c + 1) - 1) : ℕ) : ℂ) *
        (((image.getD y []).getD x 0 : ℝ) : ℂ)).re =
        ((evenPow2 (H + (2 * c + 1) - 1) * evenPow2 (W + (2 * c + 1) - 1) : ℕ) : ℝ) *
          (image.getD y []).getD x 0 := by
      have hcast : (((evenPow2 (H + (2 * c + 1) - 1) : ℕ) : ℂ) *
          ((evenPow2 (W + (2 * c + 1) - 1) : ℕ) : ℂ) *
          (((image.getD y []).getD x 0 : ℝ) : ℂ)) =
          ((((evenPow2 (H + (2 * c + 1) - 1) *
            evenPow2 (W + (2 * c + 1) - 1) : ℕ) : ℝ) *
            (image.getD y []).getD x 0 : ℝ) : ℂ) := by
        push_cast
        ring
      rw [hcast, Complex.ofReal_re]
    rw [hre]
    have hden : ((evenPow2 (H + (2 * c + 1) - 1) *
        evenPow2 (W + (2 * c + 1) - 1) : ℕ) : ℝ) ≠ 0 := by
      positivity
    field_simp
    have hA : ((evenPow2 (H + 2 * c) : ℕ) : ℝ) ≠ 0 :=
      Nat.cast_ne_zero.mpr (by have := evenPow2_pos (H + 2 * c); omega)
    have hB : ((evenPow2 (W + 2 * c) : ℕ) : ℝ) ≠ 0 :=
      Nat.cast_ne_zero.mpr (by have := evenPow2_pos (W + 2 * c); omega)
    exact mul_div_cancel_left₀ _ (mul_ne_zero hA hB)
  rw [hmain, list_reconstruct image H W hlen hrows]

/-- Closed witness for `convolve_delta_same_identity` on the 2×2 image
`[[5,7],[11,13]]` with the 3×3 delta PSF. -/
theorem convolve_delta_same_identity_witness :
    convolvePSFFFT [[(5 : ℝ), 7], [11, 13]] (deltaPsf 1) 1 ConvMode.Same
      PaddingMode.Zeros false = Except.ok [[(5 : ℝ), 7], [11, 13]] := by
  apply convolve_delta_same_identity [[(5 : ℝ), 7], [11, 13]] 2 2 1
  · have hrect : isRect [[(5 : ℝ), 7], [11, 13]] := by
      intro row hrow
      simp only [List.mem_cons, List.not_mem_nil, or_false] at hrow
      rcases hrow with h | h <;> subst h <;> rfl
    rw [rectSize_rect _ hrect]
    rfl
  · norm_num
  · norm_num

lemma evenPow2_four : evenPow2 4 = 4 := by
  have h4 : nextPow2 4 = 4 := by
    unfold nextPow2
    rw [if_neg (by norm_num)]
    rw [show (4 : ℕ) = 2 ^ 2 by norm_num, Nat.clog_pow 2 2 (by norm_num)]
  unfold evenPow2
  rw [h4]
  norm_num

lemma ifftshift2D_deltaPsf_one :
    ifftshift2D (deltaPsf 1) = [[(1 : ℝ), 0, 0], [0, 0, 0], [0, 0, 0]] := by
  have hlen : (deltaPsf 1).length = 3 := by
    unfold deltaPsf
    rfl
  have hrow0 : ((deltaPsf 1).getD 0 []).length = 3 := by
    unfold deltaPsf
    rfl
  simp only [ifftshift2D]
  rw [hlen, hrow0]
  have hentry : ∀ y x : ℕ, y < 3 → x < 3 →
      ((deltaPsf 1).getD ((y + 3 / 2) % 3) []).getD ((x + 3 / 2) % 3) 0 =
        if y = 0 ∧ x = 0 then (1 : ℝ) else 0 := by
    intro y x hy hx
    unfold deltaPsf
    rw [range_map_getD _ _ _ _ (by omega), range_map_getD _ _ _ _ (by omega)]
    interval_cases y <;> interval_cases x <;> norm_num
  have hr : List.range 3 = [0, 1, 2] := rfl
  rw [hr]
  simp only [List.map_cons, List.map_nil]
  rw [hentry 0 0 (by omega) (by omega), hentry 0 1 (by omega) (by omega),
    hentry 0 2 (by omega) (by omega), hentry 1 0 (by omega) (by omega),
    hentry 1 1 (by omega) (by omega), hentry 1 2 (by omega) (by omega),
    hentry 2 0 (by omega) (by omega), hentry 2 1 (by omega) (by omega),
    hentry 2 2 (by omega) (by omega)]
  norm_num

lemma gridB_deltaPsf_centered : ∀ y x : ℕ,
    gridB (deltaPsf 1) 3 3 true y x = if y = 0 ∧ x = 0 then 1 else 0 := by
  intro y x
  unfold gridB
  simp only [if_true]
  rw [ifftshift2D_deltaPsf_one]
  by_cases hy : y < 3
  · by_cases hx2 : x < 3
    · rw [if_pos ⟨hy, hx2⟩]
      interval_cases y <;> interval_cases x <;> norm_num
    · rw [if_neg (by tauto), if_neg (by omega)]
  · rw [if_neg (by tauto), if_neg (by omega)]

/-- **C3 counterexample.** With the PSF handled exactly as the specification
text describes — ifftshift applied to the centered 3×3 delta PSF before
transforming — Same-mode convolution with Zeros padding does NOT return the
input image: on `[[1,0],[0,0]]` it returns the cyclically shifted crop
`[[0,0],[0,0]]`. -/
theorem convolve_delta_ifftshift_not_identity :
    convolvePSFFFT [[(1 : ℝ), 0], [0, 0]] (deltaPsf 1) 1 ConvMode.Same
      PaddingMode.Zeros true ≠ Except.ok [[(1 : ℝ), 0], [0, 0]] := by
  have h1 : rectSize [[(1 : ℝ), 0], [0, 0]] = Except.ok (2, 2) := by
    have hrect : isRect [[(1 : ℝ), 0], [0, 0]] := by
      intro row hrow
      simp only [List.mem_cons, List.not_mem_nil, or_false] at hrow
      rcases hrow with h | h <;> subst h <;> rfl
    rw [rectSize_rect _ hrect]
    rfl
  have hok : convolvePSFFFT [[(1 : ℝ), 0], [0, 0]] (deltaPsf 1) 1 ConvMode.Same
      PaddingMode.Zeros true = Except.ok [[(0 : ℝ), 0], [0, 0]] := by
    rw [convolve_same_ok [[(1 : ℝ), 0], [0, 0]] (deltaPsf 1) 1
      PaddingMode.Zeros true 2 2 3 3 h1 (deltaPsf_rectSize 1)
      (by norm_num) (by norm_num) (by norm_num) (by norm_num)]
    have hE : ∀ yy xx : ℕ, yy < 4 → xx < 4 →
        (1 ≤ yy ∨ 1 ≤ xx) →
        convFullEntry [[(1 : ℝ), 0], [0, 0]] (deltaPsf 1) 1
          PaddingMode.Zeros true 2 2 3 3 yy xx = 0 := by
      intro yy xx hyy hxx hpos
      simp only [convFullEntry]
      rw [show (2 + 3 - 1 : ℕ) = 4 by norm_num, evenPow2_four]
      rw [conv_delta 4 4 (by norm_num) (by norm_num)
        (gridA [[(1 : ℝ), 0], [0, 0]] PaddingMode.Zeros) 0 0
        (by norm_num) (by norm_num) (gridB (deltaPsf 1) 3 3 true)
        gridB_deltaPsf_centered yy xx]
      have hmod : ∀ a : ℕ, a < 4 →
          (((a : ℕ) : ℤ) - ((0 : ℕ) : ℤ)) % (((4 : ℕ)) : ℤ) = ((a : ℕ) : ℤ) := by
        intro a ha
        rw [show ((a : ℤ) - ((0 : ℕ) : ℤ)) = (a : ℤ) by push_cast; ring]
        apply Int.emod_eq_of_lt (by positivity)
        exact_mod_cast ha
      rw [hmod yy hyy, hmod xx hxx, Int.toNat_natCast, Int.toNat_natCast]
      have hsamp : sample2D [[(1 : ℝ), 0], [0, 0]] (yy : ℤ) (xx : ℤ)
          PaddingMode.Zeros = 0 := by
        by_cases hin : yy < 2 ∧ xx < 2
        · rw [sample2D_inbounds _ _ yy xx (by simpa using hin.1) (by simpa using hin.2)]
          have h1y : 1 ≤ yy ∨ 1 ≤ xx := hpos
          interval_cases yy <;> interval_cases xx <;> simp_all <;> norm_num
        · apply sample2D_zeros_oob
          push_neg at hin
          by_cases hy2 : yy < 2
          · right
            simpa using hin hy2
          · left
            simpa using hy2
      unfold gridA
      rw [hsamp]
      norm_num
    congr 1
    have hr2 : List.range 2 = [0, 1] := rfl
    rw [hr2]
    simp only [List.map_cons, List.map_nil]
    rw [show (3 : ℕ) / 2 = 1 by norm_num]
    rw [hE (0 + 1) (0 + 1) (by omega) (by omega) (by omega),
      hE (0 + 1) (1 + 1) (by omega) (by omega) (by omega),
      hE (1 + 1) (0 + 1) (by omega) (by omega) (by omega),
      hE (1 + 1) (1 + 1) (by omega) (by omega) (by omega)]
  rw [hok]
  intro hcon
  have := Except.ok.inj hcon
  simp at this

/-- **C4 (amended).** `convolvePSFFFT` rejects a ragged image, a ragged PSF,
an empty image or PSF, and a Valid-mode request with non-positive output
dimensions.  (No check of `sumWeights` exists; see the counterexample.) -/
theorem convolvePSFFFT_rejections (image psf : List (List ℝ)) (starSum : ℝ)
    (mode : ConvMode) (pad : PaddingMode) (centered : Bool) :
    (¬isRect image → convolvePSFFFT image psf starSum mode pad centered =
      Except.error "ragged matrix")
    ∧ (isRect image → ¬isRect psf →
      convolvePSFFFT image psf starSum mode pad centered =
        Except.error "ragged matrix")
    ∧ (∀ H W Ph Pw : ℕ, rectSize image = Except.ok (H, W) →
      rectSize psf = Except.ok (Ph, Pw) → (H = 0 ∨ W = 0 ∨ Ph = 0 ∨ Pw = 0) →
      convolvePSFFFT image psf starSum mode pad centered =
        Except.error "empty image or psf")
    ∧ (∀ H W Ph Pw : ℕ, rectSize image = Except.ok (H, W) →
      rectSize psf = Except.ok (Ph, Pw) →
      ¬(H = 0 ∨ W = 0 ∨ Ph = 0 ∨ Pw = 0) → (H < Ph ∨ W < Pw) →
      convolvePSFFFT image psf starSum ConvMode.Valid pad centered =
        Except.error "valid convolution requested but psf larger than image") := by
  refine ⟨?_, ?_, ?_, ?_⟩
  · intro h
    unfold convolvePSFFFT
    rw [rectSize_ragged image h]
  · intro himg hpsf
    unfold convolvePSFFFT
    rw [rectSize_rect image himg, rectSize_ragged psf hpsf]
  · intro H W Ph Pw h1 h2 hzero
    unfold convolvePSFFFT
    rw [h1, h2]
    dsimp only
    rw [if_pos hzero]
  · intro H W Ph Pw h1 h2 hzero hlt
    unfold convolvePSFFFT
    rw [h1, h2]
    dsimp only
    rw [if_neg hzero]
    rw [if_pos hlt]

/-- Closed witness for `convolvePSFFFT_rejections`: a ragged image, a ragged
PSF, an empty image, and a too-large Valid PSF are each rejected. -/
theorem convolvePSFFFT_rejections_witness :
    (convolvePSFFFT [[(1 : ℝ)], [2, 3]] [[(1 : ℝ)]] 1 ConvMode.Same
      PaddingMode.Zeros false = Except.error "ragged matrix")
    ∧ (convolvePSFFFT [[(1 : ℝ)]] [[(1 : ℝ)], [2, 3]] 1 ConvMode.Same
      PaddingMode.Zeros false = Except.error "ragged matrix")
    ∧ (convolvePSFFFT ([] : List (List ℝ)) [[(1 : ℝ)]] 1 ConvMode.Same
      PaddingMode.Zeros false = Except.error "empty image or psf")
    ∧ (convolvePSFFFT [[(1 : ℝ)]] [[(1 : ℝ)], [1]] 1 ConvMode.Valid
      PaddingMode.Zeros false =
        Except.error "valid convolution requested but psf larger than image") := by
  have hragged : ¬isRect [[(1 : ℝ)], [2, 3]] := by
    intro h
    have := h [2, 3] (by simp)
    simp [isRect] at this
  have hrect1 : isRect [[(1 : ℝ)]] := by
    intro row hrow
    simp only [List.mem_cons, List.not_mem_nil, or_false] at hrow
    subst hrow
    rfl
  have hrect21 : isRect [[(1 : ℝ)], [1]] := by
    intro row hrow
    simp only [List.mem_cons, List.not_mem_nil, or_false] at hrow
    rcases hrow with h | h <;> subst h <;> rfl
  have hr1 : rectSize [[(1 : ℝ)]] = Except.ok (1, 1) := by
    rw [rectSize_rect _ hrect1]
    rfl
  have hr21 : rectSize [[(1 : ℝ)], [1]] = Except.ok (2, 1) := by
    rw [rectSize_rect _ hrect21]
    rfl
  have hrempty : rectSize ([] : List (List ℝ)) = Except.ok (0, 0) := rfl
  refine ⟨?_, ?_, ?_, ?_⟩
  · exact (convolvePSFFFT_rejections [[(1 : ℝ)], [2, 3]] [[(1 : ℝ)]] 1
      ConvMode.Same PaddingMode.Zeros false).1 hragged
  · exact (convolvePSFFFT_rejections [[(1 : ℝ)]] [[(1 : ℝ)], [2, 3]] 1
      ConvMode.Same PaddingMode.Zeros false).2.1 hrect1 hragged
  · exact (convolvePSFFFT_rejections ([] : List (List ℝ)) [[(1 : ℝ)]] 1
      ConvMode.Same PaddingMode.Zeros false).2.2.1 0 0 1 1 hrempty hr1
      (by omega)
  · exact (convolvePSFFFT_rejections [[(1 : ℝ)]] [[(1 : ℝ)], [1]] 1
      ConvMode.Valid PaddingMode.Zeros false).2.2.2 1 1 2 1 hr1 hr21
      (by omega) (by omega)

/-- **C4 counterexample.** `ConvolvePSFFFT` performs no check on
`sumWeights`: with `starSum = 0 ≤ 0` it still returns a result (an `ok`
value whose entries were divided by zero), so the claimed rejection of
`sumWeights ≤ 0` is false on the code. -/
theorem convolvePSFFFT_accepts_nonpositive_starSum :
    convolvePSFFFT [[(1 : ℝ)]] [[(1 : ℝ)]] 0 ConvMode.Same PaddingMode.Zeros
      false = Except.ok
        [[convFullEntry [[(1 : ℝ)]] [[(1 : ℝ)]] 0 PaddingMode.Zeros false
          1 1 1 1 0 0]] := by
  have hrect1 : isRect [[(1 : ℝ)]] := by
    intro row hrow
    simp only [List.mem_cons, List.not_mem_nil, or_false] at hrow
    subst hrow
    rfl
  have hr1 : rectSize [[(1 : ℝ)]] = Except.ok (1, 1) := by
    rw [rectSize_rect _ hrect1]
    rfl
  rw [convolve_same_ok [[(1 : ℝ)]] [[(1 : ℝ)]] 0 PaddingMode.Zeros false
    1 1 1 1 hr1 hr1 (by norm_num) (by norm_num) (by norm_num) (by norm_num)]
  rfl

end

end IOTA
